import Mathlib

/-!
Shallow embedding of the shift-allocation core of the AI Schedule Recommender
(`src/App.jsx`): the greedy shift planner `buildShiftPlanStrategic`, the hire
recommendation function `computeHireRecommendations`, the roster builder
`buildRoster`, and the orchestrator's resolution of capacity limits.

Modelling conventions:
* JS arrays of numbers become `List Nat` / `List Int`; out-of-range reads use
  `List.getD` (the planner only indexes in range for 24-entry inputs).
* Coverage counters and caps are `Nat` (the code only ever increments them from
  zero and the caps are non-negative integers); the requirement/deficit vector
  and scores are `Int`, as the requirement is an arbitrary integer input.
* The unbounded JS `while` loops are modelled with explicit fuel; the fuel
  actually used by the program is `maxFTShifts + maxPTShifts + 2`, and a
  theorem below shows any larger fuel gives the same result.
-/

namespace ScheduleApp

/-- Apply `f` to every element together with its index, the first element
getting index `i`.  This models the JS pattern of a `for` loop that writes
`a[h] = f(h, a[h])` over a whole array. -/
def mapWithIndexFrom (f : Nat → α → β) : Nat → List α → List β
  | _, [] => []
  | i, x :: xs => f i x :: mapWithIndexFrom f (i + 1) xs

theorem length_mapWithIndexFrom (f : Nat → α → β) :
    ∀ (i : Nat) (l : List α), (mapWithIndexFrom f i l).length = l.length := by
  intro i l
  induction l generalizing i with
  | nil => rfl
  | cons x xs ih => simp [mapWithIndexFrom, ih]

theorem getD_mapWithIndexFrom (f : Nat → α → β) (d : α) (e : β) :
    ∀ (l : List α) (i h : Nat),
      (mapWithIndexFrom f i l).getD h e =
        if h < l.length then f (i + h) (l.getD h d) else e := by
  intro l
  induction l with
  | nil => intro i h; simp [mapWithIndexFrom]
  | cons x xs ih =>
    intro i h
    cases h with
    | zero => simp [mapWithIndexFrom]
    | succ h =>
      have harith : i + 1 + h = i + (h + 1) := by omega
      simp only [mapWithIndexFrom, List.getD_cons_succ, List.length_cons, ih (i + 1) h,
        harith, Nat.add_lt_add_iff_right]

/-- `covFT[h] += 1` (resp. `covPT`) for every `h` in `[s, s+len)`. -/
def incRange (s len : Nat) (l : List Nat) : List Nat :=
  mapWithIndexFrom (fun i v => if s ≤ i ∧ i < s + len then v + 1 else v) 0 l

/-- `deficit[h] = Math.max(0, deficit[h] - 1)` for every `h` in `[s, s+len)`. -/
def decFloorRange (s len : Nat) (l : List Int) : List Int :=
  mapWithIndexFrom (fun i v => if s ≤ i ∧ i < s + len then max 0 (v - 1) else v) 0 l

theorem getD_incRange (s len : Nat) (l : List Nat) (h : Nat) :
    (incRange s len l).getD h 0 =
      if h < l.length ∧ s ≤ h ∧ h < s + len then l.getD h 0 + 1 else l.getD h 0 := by
  rw [incRange, getD_mapWithIndexFrom _ 0 0 l 0 h]
  simp only [Nat.zero_add]
  by_cases hl : h < l.length
  · by_cases hr : s ≤ h ∧ h < s + len
    · simp [hl, hr]
    · simp [hl, hr]
  · rw [if_neg hl, if_neg (by tauto)]
    exact (List.getD_eq_default _ _ (Nat.le_of_not_lt hl)).symm

theorem getD_decFloorRange (s len : Nat) (l : List Int) (h : Nat) :
    (decFloorRange s len l).getD h 0 =
      if h < l.length ∧ s ≤ h ∧ h < s + len then max 0 (l.getD h 0 - 1) else l.getD h 0 := by
  rw [decFloorRange, getD_mapWithIndexFrom _ 0 0 l 0 h]
  simp only [Nat.zero_add]
  by_cases hl : h < l.length
  · by_cases hr : s ≤ h ∧ h < s + len
    · simp [hl, hr]
    · simp [hl, hr]
  · rw [if_neg hl, if_neg (by tauto)]
    exact (List.getD_eq_default _ _ (Nat.le_of_not_lt hl)).symm

theorem length_incRange (s len : Nat) (l : List Nat) :
    (incRange s len l).length = l.length := length_mapWithIndexFrom _ _ _

theorem length_decFloorRange (s len : Nat) (l : List Int) :
    (decFloorRange s len l).length = l.length := length_mapWithIndexFrom _ _ _

/-- `limits: { capFT, capPT, maxFTShifts, maxPTShifts }` from the source. -/
structure Limits where
  capFT : Nat
  capPT : Nat
  maxFTShifts : Nat
  maxPTShifts : Nat
deriving DecidableEq

/-- A shift window `{ start, end, count }` as pushed/merged by the planner. -/
structure Window where
  start : Nat
  «end» : Nat
  count : Nat
deriving DecidableEq

/-- The planner's strategy option; any string other than the three named ones
takes the `else` (auto) branch in the source, and the UI only offers these
four values. -/
inductive Strategy
  | auto
  | ft_first
  | pt_first
  | mixed
deriving DecidableEq

/-- The planner's `opts` argument. -/
structure Opts where
  strategy : Strategy
  mixedFtPercent : Int
  isWeekend : Bool
  ptLenHours : Nat
deriving DecidableEq

/-- The mutable closure state of one `buildShiftPlanStrategic` run:
`deficit`, `covFT`, `covPT`, `placedFT`, `placedPT`, `shiftsFT`, `shiftsPT`. -/
structure PlanState where
  deficit : List Int
  covFT : List Nat
  covPT : List Nat
  placedFT : Nat
  placedPT : Nat
  shiftsFT : List Window
  shiftsPT : List Window
deriving DecidableEq

/-- `canPlaceFTAt(s)`: the placed-count is below `maxFTShifts` and every hour
of the 8-hour window has `covFT[h] < capFT` and combined coverage below
`capFT + capPT`. -/
def canPlaceFTAt (limits : Limits) (st : PlanState) (s : Nat) : Bool :=
  decide (st.placedFT < limits.maxFTShifts) &&
  (List.range 8).all (fun i =>
    decide (st.covFT.getD (s + i) 0 < limits.capFT) &&
    decide (st.covFT.getD (s + i) 0 + st.covPT.getD (s + i) 0 < limits.capFT + limits.capPT))

/-- `canPlacePTAt(s)` for a part-time window of length `ptLen`. -/
def canPlacePTAt (limits : Limits) (ptLen : Nat) (st : PlanState) (s : Nat) : Bool :=
  decide (st.placedPT < limits.maxPTShifts) &&
  (List.range ptLen).all (fun i =>
    decide (st.covPT.getD (s + i) 0 < limits.capPT) &&
    decide (st.covFT.getD (s + i) 0 + st.covPT.getD (s + i) 0 < limits.capFT + limits.capPT))

/-- `scoreWindow(s, len, type)`: sum over window hours of
`min(deficit[h], roomType)` where `roomType` is the smaller of the remaining
combined room and the remaining room under the class's own cap (hours with no
room contribute nothing).  `isFT = true` models `type === 'FT'`. -/
def scoreWindow (limits : Limits) (st : PlanState) (s len : Nat) (isFT : Bool) : Int :=
  ((List.range len).map (fun i =>
    let h := s + i
    let totalRoom : Int :=
      max 0 ((limits.capFT : Int) + (limits.capPT : Int)
        - ((st.covFT.getD h 0 : Int) + (st.covPT.getD h 0 : Int)))
    if totalRoom ≤ 0 then 0
    else
      let roomType : Int :=
        if isFT then min totalRoom (max 0 ((limits.capFT : Int) - (st.covFT.getD h 0 : Int)))
        else min totalRoom (max 0 ((limits.capPT : Int) - (st.covPT.getD h 0 : Int)))
      if 0 < roomType then min (st.deficit.getD h 0) roomType else 0)).sum

/-- The scan `for (const s of starts) { if (!feas(s)) continue; const sc =
score(s); if (sc > best) { best = sc; bestS = s; } }` starting from the
accumulator `(bestS, best)` (initially `(-1, 0)`). -/
def pickBest (feas : Nat → Bool) (score : Nat → Int) : List Nat → Int × Int → Int × Int
  | [], acc => acc
  | s :: rest, acc =>
    if feas s then
      (if score s > acc.2 then pickBest feas score rest ((s : Int), score s)
       else pickBest feas score rest acc)
    else pickBest feas score rest acc

/-- Full-time start hours `0..16` (`Array.from({length: 24 - 8 + 1})`). -/
def startsFT : List Nat := List.range (24 - 8 + 1)

/-- Part-time start hours `0..24-ptLen` (`Array.from({length: 24 - PT + 1})`). -/
def startsPT (ptLen : Nat) : List Nat := List.range (24 - ptLen + 1)

/-- `placeOneFT()`: returns the updated state on success, `none` on failure
(the JS function returns a boolean and mutates the closure state). -/
def placeOneFT (limits : Limits) (st : PlanState) : Option PlanState :=
  if limits.maxFTShifts ≤ st.placedFT then none
  else
    let r := pickBest (canPlaceFTAt limits st) (fun s => scoreWindow limits st s 8 true)
      startsFT (-1, 0)
    if r.2 ≤ 0 then none
    else
      let s := r.1.toNat
      some { st with
        shiftsFT := st.shiftsFT ++ [⟨s, s + 8, 1⟩],
        covFT := incRange s 8 st.covFT,
        deficit := decFloorRange s 8 st.deficit,
        placedFT := st.placedFT + 1 }

/-- `placeOnePT()`. -/
def placeOnePT (limits : Limits) (ptLen : Nat) (st : PlanState) : Option PlanState :=
  if limits.maxPTShifts ≤ st.placedPT then none
  else
    let r := pickBest (canPlacePTAt limits ptLen st) (fun s => scoreWindow limits st s ptLen false)
      (startsPT ptLen) (-1, 0)
    if r.2 ≤ 0 then none
    else
      let s := r.1.toNat
      some { st with
        shiftsPT := st.shiftsPT ++ [⟨s, s + ptLen, 1⟩],
        covPT := incRange s ptLen st.covPT,
        deficit := decFloorRange s ptLen st.deficit,
        placedPT := st.placedPT + 1 }

/-- One iteration of `while (placeOneFT() || placeOnePT()) {}`: short-circuit,
PT is attempted only when FT fails. -/
def stepFtFirst (limits : Limits) (ptLen : Nat) (st : PlanState) : Option PlanState :=
  match placeOneFT limits st with
  | some st' => some st'
  | none => placeOnePT limits ptLen st

/-- One iteration of `while (placeOnePT() || placeOneFT()) {}`. -/
def stepPtFirst (limits : Limits) (ptLen : Nat) (st : PlanState) : Option PlanState :=
  match placeOnePT limits ptLen st with
  | some st' => some st'
  | none => placeOneFT limits st

/-- A fueled `while (step) {}` loop: `some` means the iteration made progress
and the loop continues, `none` means the loop exits with the state unchanged. -/
def loopOr (step : σ → Option σ) : Nat → σ → σ
  | 0, st => st
  | fuel + 1, st =>
    match step st with
    | some st' => loopOr step fuel st'
    | none => st

/-- `Math.min(100, Math.max(0, opts.mixedFtPercent))`, the clamped FT target
percentage of the mixed strategy. -/
def clampPct (p : Int) : Int := min 100 (max 0 p)

/-- `share < target` of the mixed strategy, in exact integer arithmetic:
`share = ft/(ft+pt)` (treated as `1` when nothing is placed) and
`target = p/100` with `p` already clamped to `0..100`, so the comparison is
`0 < ft+pt` and `100*ft < p*(ft+pt)`. -/
def shareLt (p : Int) (ft pt : Nat) : Bool :=
  decide (0 < ft + pt ∧ 100 * (ft : Int) < p * ((ft : Int) + (pt : Int)))

/-- One iteration of the mixed-strategy loop body, threading the local `ft`
and `pt` counters; both classes are attempted (no short circuit), and the
iteration reports progress iff either placement succeeded. -/
def mixedStep (limits : Limits) (ptLen : Nat) (p : Int) :
    Nat × Nat × PlanState → Option (Nat × Nat × PlanState) :=
  fun t =>
    let ft := t.1
    let pt := t.2.1
    let st := t.2.2
    if shareLt p ft pt then
      match placeOneFT limits st with
      | some st1 =>
        match placeOnePT limits ptLen st1 with
        | some st2 => some (ft + 1, pt + 1, st2)
        | none => some (ft + 1, pt, st1)
      | none =>
        match placeOnePT limits ptLen st with
        | some st1 => some (ft, pt + 1, st1)
        | none => none
    else
      match placeOnePT limits ptLen st with
      | some st1 =>
        match placeOneFT limits st1 with
        | some st2 => some (ft + 1, pt + 1, st2)
        | none => some (ft, pt + 1, st1)
      | none =>
        match placeOneFT limits st with
        | some st1 => some (ft + 1, pt, st1)
        | none => none

/-- The fuel actually needed by `placeLoop`: every successful iteration
strictly increases the number of placed shifts, which is bounded by
`maxFTShifts + maxPTShifts`. -/
def loopBound (limits : Limits) : Nat := limits.maxFTShifts + limits.maxPTShifts + 2

/-- `placeLoop()` with explicit fuel, dispatching on the strategy: `auto`
places FT-first on weekdays and PT-first on weekends. -/
def placeLoopWith (limits : Limits) (opts : Opts) (fuel : Nat) (st : PlanState) : PlanState :=
  match opts.strategy with
  | .ft_first => loopOr (stepFtFirst limits opts.ptLenHours) fuel st
  | .pt_first => loopOr (stepPtFirst limits opts.ptLenHours) fuel st
  | .mixed =>
      (loopOr (mixedStep limits opts.ptLenHours (clampPct opts.mixedFtPercent)) fuel
        (0, 0, st)).2.2
  | .auto =>
      if opts.isWeekend then loopOr (stepPtFirst limits opts.ptLenHours) fuel st
      else loopOr (stepFtFirst limits opts.ptLenHours) fuel st

/-- `placeLoop()` as run by the program (fuel `loopBound` provably suffices,
see the termination theorem). -/
def placeLoop (limits : Limits) (opts : Opts) (st : PlanState) : PlanState :=
  placeLoopWith limits opts (loopBound limits) st

/-- Insertion step of the sort by `(a, b) => a.start - b.start || a.end - b.end`. -/
def insertWin (w : Window) : List Window → List Window
  | [] => [w]
  | x :: xs =>
    if w.start < x.start ∨ (w.start = x.start ∧ w.«end» ≤ x.«end») then w :: x :: xs
    else x :: insertWin w xs

/-- Sort windows ascending by start, then end.  The JS `Array.sort` produces a
permutation sorted under the same comparator; after the merge below the result
does not depend on which sorted permutation was produced, because windows with
identical `(start, end)` are merged. -/
def sortWins (l : List Window) : List Window := l.foldr insertWin []

/-- One step of the merge fold: if the last output window has the same
`(start, end)`, add the counts onto it, else push a copy. -/
def mergeStep (out : List Window) (p : Window) : List Window :=
  match out.getLast? with
  | some last =>
    if last.start = p.start ∧ last.«end» = p.«end» then
      out.dropLast ++ [{ last with count := last.count + p.count }]
    else out ++ [p]
  | none => [p]

/-- `merge(arr)`: sort by start then end, then merge adjacent equal windows. -/
def merge (arr : List Window) : List Window := (sortWins arr).foldl mergeStep []

/-- The initial planner state: `deficit = required.slice()`, both coverage
arrays `Array(24).fill(0)`, no placements. -/
def initState (required : List Int) : PlanState :=
  ⟨required, List.replicate 24 0, List.replicate 24 0, 0, 0, [], []⟩

/-- The planner state after the placement loop. -/
def finalState (required : List Int) (limits : Limits) (opts : Opts) : PlanState :=
  placeLoop limits opts (initState required)

/-- The `PlanResult` record returned by `buildShiftPlanStrategic`. -/
structure PlanResult where
  shiftsFT : List Window
  shiftsPT : List Window
  coverage : List Nat
  required : List Int
  shortage : List Int
  excess : List Int
  maxConcurrent : Nat
  limits : Limits
  hoursShort : Nat
  totalShortUnits : Int
deriving DecidableEq

/-- `buildShiftPlanStrategic(requiredPerHourInt, limits, opts)`. -/
def buildShiftPlanStrategic (required : List Int) (limits : Limits) (opts : Opts) : PlanResult :=
  let st := finalState required limits opts
  let coverage := List.zipWith (· + ·) st.covFT st.covPT
  let shortage := mapWithIndexFrom
    (fun (h : Nat) (c : Nat) => max 0 (required.getD h 0 - (c : Int))) 0 coverage
  let excess := mapWithIndexFrom
    (fun (h : Nat) (c : Nat) => max 0 ((c : Int) - required.getD h 0)) 0 coverage
  { shiftsFT := merge st.shiftsFT
    shiftsPT := merge st.shiftsPT
    coverage := coverage
    required := required
    shortage := shortage
    excess := excess
    maxConcurrent := coverage.foldl max 0
    limits := limits
    hoursShort := shortage.foldl (fun n v => n + if 0 < v then 1 else 0) 0
    totalShortUnits := shortage.foldl (· + ·) 0 }

/-- Total agent count of a list of windows (`sum of count`). -/
def countSum (l : List Window) : Nat := (l.map (·.count)).sum

/-- Number of agents the windows put on duty during hour `h`: the sum of the
counts of the windows whose `[start, end)` interval contains `h`. -/
def covCount (h : Nat) (l : List Window) : Nat :=
  (l.map (fun w => if w.start ≤ h ∧ h < w.«end» then w.count else 0)).sum

/-- `ceilDiv(a, b) = Math.ceil(a / b)`.  For a positive divisor `b`,
`Math.ceil(a / b)` equals the floor of `(a + b - 1) / b`, which is what the
program computes in every call (`b` is `8`, `4`, `6`, or the PT length). -/
def ceilDiv (a b : Int) : Int := (a + b - 1).fdiv b

/-- The `mixed` field of a hire recommendation. -/
structure MixedRec where
  ft : Int
  pt : Int
  ptLenHours : Int
deriving DecidableEq

/-- The record returned by `computeHireRecommendations`. -/
structure HireRecommendation where
  totalShort : Int
  peakShort : Int
  minFT8 : Int
  minPTcur : Int
  minPT4 : Int
  minPT6 : Int
  mixed : MixedRec
deriving DecidableEq

/-- `computeHireRecommendations(plan, ptLenHours)`.  The guard
`if (!plan?.shortage?.length) return null` fires exactly when the shortage
array is empty (on a `PlanResult` the field is always present); likewise
`plan.totalShortUnits ?? ...` always takes `plan.totalShortUnits`, which is a
field of every `PlanResult`.  `peakShort = Math.max(...plan.shortage, 0)` is
the fold of `max` over the shortage entries starting from `0`. -/
def computeHireRecommendations (plan : PlanResult) (ptLenHours : Int) :
    Option HireRecommendation :=
  if plan.shortage.length = 0 then none
  else
    let totalShort := plan.totalShortUnits
    let peakShort := plan.shortage.foldl max 0
    let minFT8 := max (ceilDiv totalShort 8) peakShort
    let minPTcur := ceilDiv totalShort ptLenHours
    let minPT4 := ceilDiv totalShort 4
    let minPT6 := ceilDiv totalShort 6
    let mixFT := max peakShort (totalShort.fdiv 8)
    let mixResidual := max 0 (totalShort - mixFT * 8)
    let mixPT := ceilDiv mixResidual ptLenHours
    some ⟨totalShort, peakShort, minFT8, minPTcur, minPT4, minPT6, ⟨mixFT, mixPT, ptLenHours⟩⟩

/-- `snap30(m) = Math.round(m / 30) * 30` where the argument `m` can be a
half-integer (the code passes `mid - lunchDur / 2` with integer `lunchDur`).
To stay in exact integer arithmetic the argument here is `m2 = 2 * m`;
`Math.round(x)` is `⌊x + 1/2⌋`, so the result is `⌊(m2 + 30) / 60⌋ * 30`
with floor division. -/
def snap30 (m2 : Int) : Int := ((m2 + 30).fdiv 60) * 30

/-- One row of the per-employee roster. -/
structure RosterEntry where
  agent : String
  type : String
  start : Nat
  «end» : Nat
  hours : Nat
  lunchStart : Int
  lunchEnd : Int
deriving DecidableEq

/-- The `add(type, start, end, L)` helper of `buildRoster`: one entry with a
mid-shift lunch snapped to the 30-minute grid and clamped into the shift.
`L = none` models a blank lunch-minutes input (`parseInt(L || '30', 10)`),
which defaults to 30. -/
def addEntry (type : String) (id : Nat) (start stop : Nat) (L : Option Int) : RosterEntry :=
  let lenH := stop - start
  let durMin := lenH * 60
  let lunchDur := max 0 (L.getD 30)
  let mid2 : Int := 2 * ((start : Int) * 60) + (durMin : Int)
  let ls := snap30 (mid2 - lunchDur)
  let le := ls + lunchDur
  { agent := type ++ "-" ++ toString id
    type := type
    start := start
    «end» := stop
    hours := lenH
    lunchStart := max ((start : Int) * 60) ls
    lunchEnd := min ((stop : Int) * 60) le }

/-- The nested loops `for (const s of shifts) for (let k = 0; k < s.count; k++)
add(...)`, threading the sequential per-class employee id. -/
def rosterFor (type : String) (L : Option Int) : List Window → Nat → List RosterEntry × Nat
  | [], id => ([], id)
  | w :: rest, id =>
    let these := (List.range w.count).map (fun k => addEntry type (id + k) w.start w.«end» L)
    let r := rosterFor type L rest (id + w.count)
    (these ++ r.1, r.2)

/-- `buildRoster(shiftsFT, shiftsPT, lunchMin)`: FT entries first, then PT,
ids starting at 1 in each class. -/
def buildRoster (shiftsFT shiftsPT : List Window) (lunchMin : Option Int) : List RosterEntry :=
  (rosterFor "FT" lunchMin shiftsFT 1).1 ++ (rosterFor "PT" lunchMin shiftsPT 1).1

/-- JS `a || b` on the raw input strings, where only the empty (blank) string
is falsy; note the string `'0'` is non-empty and therefore truthy.  Blank is
modelled as `none` and a supplied integer as `some`. -/
def firstNonBlank (a b : Option Int) : Option Int :=
  match a with
  | some v => some v
  | none => b

/-- `capFt = Math.max(0, parseInt(capFT || peakStaffString, 10))` from the
orchestrator (`aggregates` memo). -/
def resolveCapFT (peak : Int) (capFT : Option Int) : Int := max 0 (capFT.getD peak)

/-- `capPt = Math.max(0, parseInt(capPT || '0', 10))`. -/
def resolveCapPT (capPT : Option Int) : Int := max 0 (capPT.getD 0)

/-- `maxFTShifts = Math.max(0, parseInt(totalFT || capFT || peakStaffString, 10))`. -/
def resolveMaxFTShifts (peak : Int) (capFT totalFT : Option Int) : Int :=
  max 0 ((firstNonBlank totalFT capFT).getD peak)

/-- `maxPTShifts = Math.max(0, parseInt(totalPT || capPT || '0', 10))`. -/
def resolveMaxPTShifts (capPT totalPT : Option Int) : Int :=
  max 0 ((firstNonBlank totalPT capPT).getD 0)

theorem getD_replicate_self {α : Type _} (a : α) : ∀ (n h : Nat), (List.replicate n a).getD h a = a := by
  intro n
  induction n with
  | zero => intro h; simp [List.replicate]
  | succ n ih =>
    intro h
    cases h with
    | zero => simp [List.replicate]
    | succ h => simp [List.replicate, ih h]

/-- Behaviour of the greedy ascending scan: the running best only grows, every
feasible candidate scores at most the final best, and when the final best is
positive it is attained at a feasible candidate that strictly beats every
earlier feasible candidate (strict `>` in the source means the first maximum
wins, i.e. ties break to the smallest start). -/
theorem pickBest_spec (feas : Nat → Bool) (score : Nat → Int) :
    ∀ (l : List Nat), l.Pairwise (· < ·) → ∀ acc : Int × Int, 0 ≤ acc.2 →
      0 ≤ (pickBest feas score l acc).2 ∧
      acc.2 ≤ (pickBest feas score l acc).2 ∧
      (∀ t ∈ l, feas t = true → score t ≤ (pickBest feas score l acc).2) ∧
      (pickBest feas score l acc = acc ∨
        ∃ s ∈ l, pickBest feas score l acc = ((s : Int), score s) ∧ feas s = true ∧
          acc.2 < score s ∧
          ∀ t ∈ l, t < s → feas t = true → score t < score s) := by
  intro l
  induction l with
  | nil =>
    intro _ acc hacc
    exact ⟨hacc, le_refl _, by simp, Or.inl rfl⟩
  | cons x xs ih =>
    intro hpw acc hacc
    have hpw' : xs.Pairwise (· < ·) := (List.pairwise_cons.mp hpw).2
    have hlt : ∀ y ∈ xs, x < y := (List.pairwise_cons.mp hpw).1
    by_cases hfx : feas x = true
    · by_cases hcmp : score x > acc.2
      · have heq : pickBest feas score (x :: xs) acc =
            pickBest feas score xs ((x : Int), score x) := by
          simp [pickBest, hfx, hcmp]
        obtain ⟨h1, h2, h3, h4⟩ := ih hpw' ((x : Int), score x) (le_of_lt (lt_of_le_of_lt hacc hcmp))
        rw [heq]
        refine ⟨h1, le_trans (le_of_lt hcmp) h2, ?_, ?_⟩
        · intro t ht hft
          rcases List.mem_cons.mp ht with rfl | ht'
          · exact le_trans (le_refl _) h2
          · exact h3 t ht' hft
        · rcases h4 with h4 | ⟨s, hs, hres, hfs, hlt2, htie⟩
          · refine Or.inr ⟨x, List.mem_cons_self _ _, h4, hfx, hcmp, ?_⟩
            intro t ht htx _
            rcases List.mem_cons.mp ht with rfl | ht'
            · omega
            · exact absurd (hlt t ht') (by omega)
          · refine Or.inr ⟨s, List.mem_cons_of_mem _ hs, hres, hfs, lt_trans hcmp hlt2, ?_⟩
            intro t ht hts hft
            rcases List.mem_cons.mp ht with rfl | ht'
            · exact hlt2
            · exact htie t ht' hts hft
      · have heq : pickBest feas score (x :: xs) acc = pickBest feas score xs acc := by
          simp [pickBest, hfx, hcmp]
        obtain ⟨h1, h2, h3, h4⟩ := ih hpw' acc hacc
        rw [heq]
        refine ⟨h1, h2, ?_, ?_⟩
        · intro t ht hft
          rcases List.mem_cons.mp ht with rfl | ht'
          · exact le_trans (le_of_not_lt hcmp) h2
          · exact h3 t ht' hft
        · rcases h4 with h4 | ⟨s, hs, hres, hfs, hlt2, htie⟩
          · exact Or.inl h4
          · refine Or.inr ⟨s, List.mem_cons_of_mem _ hs, hres, hfs, hlt2, ?_⟩
            intro t ht hts hft
            rcases List.mem_cons.mp ht with rfl | ht'
            · exact lt_of_le_of_lt (le_of_not_lt hcmp) hlt2
            · exact htie t ht' hts hft
    · have heq : pickBest feas score (x :: xs) acc = pickBest feas score xs acc := by
        simp [pickBest, hfx]
      obtain ⟨h1, h2, h3, h4⟩ := ih hpw' acc hacc
      rw [heq]
      refine ⟨h1, h2, ?_, ?_⟩
      · intro t ht hft
        rcases List.mem_cons.mp ht with rfl | ht'
        · exact absurd hft (by simp [hfx])
        · exact h3 t ht' hft
      · rcases h4 with h4 | ⟨s, hs, hres, hfs, hlt2, htie⟩
        · exact Or.inl h4
        · refine Or.inr ⟨s, List.mem_cons_of_mem _ hs, hres, hfs, hlt2, ?_⟩
          intro t ht hts hft
          rcases List.mem_cons.mp ht with rfl | ht'
          · exact absurd hft (by simp [hfx])
          · exact htie t ht' hts hft

theorem canPlaceFTAt_iff (limits : Limits) (st : PlanState) (s : Nat) :
    canPlaceFTAt limits st s = true ↔
      st.placedFT < limits.maxFTShifts ∧
      ∀ i, i < 8 → st.covFT.getD (s + i) 0 < limits.capFT ∧
        st.covFT.getD (s + i) 0 + st.covPT.getD (s + i) 0 < limits.capFT + limits.capPT := by
  simp [canPlaceFTAt, List.all_eq_true, List.mem_range]

theorem canPlacePTAt_iff (limits : Limits) (ptLen : Nat) (st : PlanState) (s : Nat) :
    canPlacePTAt limits ptLen st s = true ↔
      st.placedPT < limits.maxPTShifts ∧
      ∀ i, i < ptLen → st.covPT.getD (s + i) 0 < limits.capPT ∧
        st.covFT.getD (s + i) 0 + st.covPT.getD (s + i) 0 < limits.capFT + limits.capPT := by
  simp [canPlacePTAt, List.all_eq_true, List.mem_range]

/-- The state written by a successful `placeOneFT`, at start hour `s`. -/
def placedFTState (st : PlanState) (s : Nat) : PlanState :=
  { st with
    shiftsFT := st.shiftsFT ++ [⟨s, s + 8, 1⟩],
    covFT := incRange s 8 st.covFT,
    deficit := decFloorRange s 8 st.deficit,
    placedFT := st.placedFT + 1 }

/-- The state written by a successful `placeOnePT`, at start hour `s`. -/
def placedPTState (ptLen : Nat) (st : PlanState) (s : Nat) : PlanState :=
  { st with
    shiftsPT := st.shiftsPT ++ [⟨s, s + ptLen, 1⟩],
    covPT := incRange s ptLen st.covPT,
    deficit := decFloorRange s ptLen st.deficit,
    placedPT := st.placedPT + 1 }

/-- Success characterisation of `placeOneFT`: the placement happened at a
feasible start in `0..16` with positive score, maximal among all feasible
starts, and strictly above every feasible start to its left. -/
theorem placeOneFT_char (limits : Limits) (st st' : PlanState)
    (h : placeOneFT limits st = some st') :
    ∃ s : Nat, s < 17 ∧ canPlaceFTAt limits st s = true ∧
      0 < scoreWindow limits st s 8 true ∧
      (∀ t, t < 17 → canPlaceFTAt limits st t = true →
        scoreWindow limits st t 8 true ≤ scoreWindow limits st s 8 true) ∧
      (∀ t, t < s → canPlaceFTAt limits st t = true →
        scoreWindow limits st t 8 true < scoreWindow limits st s 8 true) ∧
      st.placedFT < limits.maxFTShifts ∧
      st' = placedFTState st s := by
  by_cases h1 : limits.maxFTShifts ≤ st.placedFT
  · simp [placeOneFT, h1] at h
  · obtain ⟨hnn, -, hmax, hch⟩ := pickBest_spec (canPlaceFTAt limits st)
      (fun s => scoreWindow limits st s 8 true) startsFT
      (List.pairwise_lt_range _) (-1, 0) (by norm_num)
    simp only [placeOneFT, h1, if_false] at h
    by_cases h2 : (pickBest (canPlaceFTAt limits st)
        (fun s => scoreWindow limits st s 8 true) startsFT (-1, 0)).2 ≤ 0
    · simp [h2] at h
    · simp only [h2, if_false, Option.some.injEq] at h
      rcases hch with hacc | ⟨s, hs, hres, hfs, -, htie⟩
      · rw [hacc] at h2; simp at h2
      · have hs17 : s < 17 := by simpa [startsFT, List.mem_range] using hs
        refine ⟨s, hs17, hfs, ?_, ?_, ?_, by omega, ?_⟩
        · have := h2; rw [hres] at this; simpa using lt_of_not_le this
        · intro t ht hft
          have htm : t ∈ startsFT := by simpa [startsFT, List.mem_range] using ht
          have := hmax t htm hft
          rw [hres] at this; simpa using this
        · intro t hts hft
          have htm : t ∈ startsFT := by
            simp only [startsFT, List.mem_range]
            omega
          exact htie t htm hts hft
        · rw [← h, hres]
          simp [placedFTState, Int.toNat_natCast]

/-- Success characterisation of `placeOnePT`. -/
theorem placeOnePT_char (limits : Limits) (ptLen : Nat) (st st' : PlanState)
    (h : placeOnePT limits ptLen st = some st') :
    ∃ s : Nat, s < 24 - ptLen + 1 ∧ canPlacePTAt limits ptLen st s = true ∧
      0 < scoreWindow limits st s ptLen false ∧
      (∀ t, t < 24 - ptLen + 1 → canPlacePTAt limits ptLen st t = true →
        scoreWindow limits st t ptLen false ≤ scoreWindow limits st s ptLen false) ∧
      (∀ t, t < s → canPlacePTAt limits ptLen st t = true →
        scoreWindow limits st t ptLen false < scoreWindow limits st s ptLen false) ∧
      st.placedPT < limits.maxPTShifts ∧
      st' = placedPTState ptLen st s := by
  by_cases h1 : limits.maxPTShifts ≤ st.placedPT
  · simp [placeOnePT, h1] at h
  · obtain ⟨hnn, -, hmax, hch⟩ := pickBest_spec (canPlacePTAt limits ptLen st)
      (fun s => scoreWindow limits st s ptLen false) (startsPT ptLen)
      (List.pairwise_lt_range _) (-1, 0) (by norm_num)
    simp only [placeOnePT, h1, if_false] at h
    by_cases h2 : (pickBest (canPlacePTAt limits ptLen st)
        (fun s => scoreWindow limits st s ptLen false) (startsPT ptLen) (-1, 0)).2 ≤ 0
    · simp [h2] at h
    · simp only [h2, if_false, Option.some.injEq] at h
      rcases hch with hacc | ⟨s, hs, hres, hfs, -, htie⟩
      · rw [hacc] at h2; simp at h2
      · have hsb : s < 24 - ptLen + 1 := by simpa [startsPT, List.mem_range] using hs
        refine ⟨s, hsb, hfs, ?_, ?_, ?_, by omega, ?_⟩
        · have := h2; rw [hres] at this; simpa using lt_of_not_le this
        · intro t ht hft
          have htm : t ∈ startsPT ptLen := by simpa [startsPT, List.mem_range] using ht
          have := hmax t htm hft
          rw [hres] at this; simpa using this
        · intro t hts hft
          have htm : t ∈ startsPT ptLen := by
            simp only [startsPT, List.mem_range]
            omega
          exact htie t htm hts hft
        · rw [← h, hres]
          simp [placedPTState, Int.toNat_natCast]

/-- `placeOneFT` fails exactly when the FT headcount is exhausted or no
feasible start has positive score ("best score 0"). -/
theorem placeOneFT_none_iff (limits : Limits) (st : PlanState) :
    placeOneFT limits st = none ↔
      limits.maxFTShifts ≤ st.placedFT ∨
      ∀ t, t < 17 → canPlaceFTAt limits st t = true → scoreWindow limits st t 8 true ≤ 0 := by
  by_cases h1 : limits.maxFTShifts ≤ st.placedFT
  · simp [placeOneFT, h1]
  · obtain ⟨hnn, -, hmax, hch⟩ := pickBest_spec (canPlaceFTAt limits st)
      (fun s => scoreWindow limits st s 8 true) startsFT
      (List.pairwise_lt_range _) (-1, 0) (by norm_num)
    simp only [placeOneFT, h1, if_false, false_or]
    constructor
    · intro h
      by_cases h2 : (pickBest (canPlaceFTAt limits st)
          (fun s => scoreWindow limits st s 8 true) startsFT (-1, 0)).2 ≤ 0
      · intro t ht hft
        have htm : t ∈ startsFT := by simpa [startsFT, List.mem_range] using ht
        exact le_trans (hmax t htm hft) h2
      · simp [h2] at h
    · intro hall
      have h2 : (pickBest (canPlaceFTAt limits st)
          (fun s => scoreWindow limits st s 8 true) startsFT (-1, 0)).2 ≤ 0 := by
        rcases hch with hacc | ⟨s, hs, hres, hfs, -, -⟩
        · rw [hacc]
        · have hs17 : s < 17 := by simpa [startsFT, List.mem_range] using hs
          rw [hres]
          exact hall s hs17 hfs
      simp [h2]

/-- `placeOnePT` fails exactly when the PT headcount is exhausted or no
feasible start has positive score. -/
theorem placeOnePT_none_iff (limits : Limits) (ptLen : Nat) (st : PlanState) :
    placeOnePT limits ptLen st = none ↔
      limits.maxPTShifts ≤ st.placedPT ∨
      ∀ t, t < 24 - ptLen + 1 → canPlacePTAt limits ptLen st t = true →
        scoreWindow limits st t ptLen false ≤ 0 := by
  by_cases h1 : limits.maxPTShifts ≤ st.placedPT
  · simp [placeOnePT, h1]
  · obtain ⟨hnn, -, hmax, hch⟩ := pickBest_spec (canPlacePTAt limits ptLen st)
      (fun s => scoreWindow limits st s ptLen false) (startsPT ptLen)
      (List.pairwise_lt_range _) (-1, 0) (by norm_num)
    simp only [placeOnePT, h1, if_false, false_or]
    constructor
    · intro h
      by_cases h2 : (pickBest (canPlacePTAt limits ptLen st)
          (fun s => scoreWindow limits st s ptLen false) (startsPT ptLen) (-1, 0)).2 ≤ 0
      · intro t ht hft
        have htm : t ∈ startsPT ptLen := by simpa [startsPT, List.mem_range] using ht
        exact le_trans (hmax t htm hft) h2
      · simp [h2] at h
    · intro hall
      have h2 : (pickBest (canPlacePTAt limits ptLen st)
          (fun s => scoreWindow limits st s ptLen false) (startsPT ptLen) (-1, 0)).2 ≤ 0 := by
        rcases hch with hacc | ⟨s, hs, hres, hfs, -, -⟩
        · rw [hacc]
        · have hsb : s < 24 - ptLen + 1 := by simpa [startsPT, List.mem_range] using hs
          rw [hres]
          exact hall s hsb hfs
      simp [h2]

theorem covCount_nil (h : Nat) : covCount h [] = 0 := rfl

theorem covCount_cons (h : Nat) (w : Window) (l : List Window) :
    covCount h (w :: l) = (if w.start ≤ h ∧ h < w.«end» then w.count else 0) + covCount h l := by
  simp [covCount]

theorem covCount_append (h : Nat) (l1 l2 : List Window) :
    covCount h (l1 ++ l2) = covCount h l1 + covCount h l2 := by
  simp [covCount]

theorem countSum_nil : countSum [] = 0 := rfl

theorem countSum_append (l1 l2 : List Window) :
    countSum (l1 ++ l2) = countSum l1 + countSum l2 := by
  simp [countSum]

theorem covCount_perm {l1 l2 : List Window} (h : Nat) (hp : l1.Perm l2) :
    covCount h l1 = covCount h l2 :=
  (hp.map _).sum_eq

theorem countSum_perm {l1 l2 : List Window} (hp : l1.Perm l2) :
    countSum l1 = countSum l2 :=
  (hp.map _).sum_eq

theorem insertWin_perm (w : Window) : ∀ l : List Window, (insertWin w l).Perm (w :: l) := by
  intro l
  induction l with
  | nil => simp [insertWin]
  | cons x xs ih =>
    rw [insertWin]
    by_cases hc : w.start < x.start ∨ (w.start = x.start ∧ w.«end» ≤ x.«end»)
    · simp [hc]
    · rw [if_neg hc]
      exact (ih.cons x).trans (List.Perm.swap w x xs)

theorem sortWins_perm : ∀ l : List Window, (sortWins l).Perm l := by
  intro l
  induction l with
  | nil => simp [sortWins]
  | cons x xs ih =>
    have : sortWins (x :: xs) = insertWin x (sortWins xs) := rfl
    rw [this]
    exact (insertWin_perm x (sortWins xs)).trans (ih.cons x)

theorem mergeStep_nil (p : Window) : mergeStep [] p = [p] := rfl

theorem mergeStep_concat (ys : List Window) (last p : Window) :
    mergeStep (ys ++ [last]) p =
      if last.start = p.start ∧ last.«end» = p.«end» then
        ys ++ [{ last with count := last.count + p.count }]
      else (ys ++ [last]) ++ [p] := by
  rw [mergeStep, List.getLast?_concat, List.dropLast_concat]

theorem covCount_mergeStep (h : Nat) (out : List Window) (p : Window) :
    covCount h (mergeStep out p) = covCount h out + covCount h [p] := by
  rcases List.eq_nil_or_concat out with rfl | ⟨ys, last, rfl⟩
  · simp [mergeStep_nil, covCount_nil]
  · rw [List.concat_eq_append, mergeStep_concat]
    by_cases hc : last.start = p.start ∧ last.«end» = p.«end»
    · rw [if_pos hc, covCount_append, covCount_append]
      simp only [covCount_cons, covCount_nil]
      rcases hc with ⟨h1, h2⟩
      by_cases hcov : p.start ≤ h ∧ h < p.«end»
      · simp [h1, h2, hcov]; omega
      · simp [h1, h2, hcov]
    · rw [if_neg hc, covCount_append]

theorem countSum_mergeStep (out : List Window) (p : Window) :
    countSum (mergeStep out p) = countSum out + countSum [p] := by
  rcases List.eq_nil_or_concat out with rfl | ⟨ys, last, rfl⟩
  · simp [mergeStep_nil, countSum_nil]
  · rw [List.concat_eq_append, mergeStep_concat]
    by_cases hc : last.start = p.start ∧ last.«end» = p.«end»
    · rw [if_pos hc, countSum_append, countSum_append]
      simp [countSum]
      omega
    · rw [if_neg hc, countSum_append]

theorem covCount_foldl_mergeStep (h : Nat) :
    ∀ (l out : List Window), covCount h (l.foldl mergeStep out) = covCount h out + covCount h l := by
  intro l
  induction l with
  | nil => intro out; simp [covCount_nil]
  | cons p l ih =>
    intro out
    rw [List.foldl_cons, ih, covCount_mergeStep, covCount_cons]
    simp [covCount_cons, covCount_nil]
    omega

theorem countSum_foldl_mergeStep :
    ∀ (l out : List Window), countSum (l.foldl mergeStep out) = countSum out + countSum l := by
  intro l
  induction l with
  | nil => intro out; simp [countSum_nil]
  | cons p l ih =>
    intro out
    rw [List.foldl_cons, ih, countSum_mergeStep]
    simp [countSum]
    omega

/-- Merging preserves the per-hour coverage implied by the windows. -/
theorem covCount_merge (h : Nat) (arr : List Window) :
    covCount h (merge arr) = covCount h arr := by
  rw [merge, covCount_foldl_mergeStep, covCount_nil, Nat.zero_add]
  exact covCount_perm h (sortWins_perm arr)

/-- Merging preserves the total agent count of the windows. -/
theorem countSum_merge (arr : List Window) :
    countSum (merge arr) = countSum arr := by
  rw [merge, countSum_foldl_mergeStep, countSum_nil, Nat.zero_add]
  exact countSum_perm (sortWins_perm arr)

/-- The planner's running invariant: both coverage arrays have 24 entries and
respect the per-class and combined caps, the placed-counts respect the
headcount limits and equal the total counts of the accumulated windows, and
each coverage array is exactly the per-hour coverage implied by its windows. -/
structure Inv (limits : Limits) (st : PlanState) : Prop where
  covFT_len : st.covFT.length = 24
  covPT_len : st.covPT.length = 24
  capF : ∀ h, st.covFT.getD h 0 ≤ limits.capFT
  capP : ∀ h, st.covPT.getD h 0 ≤ limits.capPT
  capSum : ∀ h, st.covFT.getD h 0 + st.covPT.getD h 0 ≤ limits.capFT + limits.capPT
  placedF : st.placedFT ≤ limits.maxFTShifts
  placedP : st.placedPT ≤ limits.maxPTShifts
  countF : countSum st.shiftsFT = st.placedFT
  countP : countSum st.shiftsPT = st.placedPT
  covF_eq : ∀ h, h < 24 → st.covFT.getD h 0 = covCount h st.shiftsFT
  covP_eq : ∀ h, h < 24 → st.covPT.getD h 0 = covCount h st.shiftsPT

theorem Inv_placeOneFT (limits : Limits) (st st' : PlanState)
    (hinv : Inv limits st) (h : placeOneFT limits st = some st') : Inv limits st' := by
  obtain ⟨s, hs17, hfeas, -, -, -, hplaced, rfl⟩ := placeOneFT_char limits st st' h
  obtain ⟨-, hhours⟩ := (canPlaceFTAt_iff limits st s).mp hfeas
  have hgetF : ∀ h, (incRange s 8 st.covFT).getD h 0 =
      if h < 24 ∧ s ≤ h ∧ h < s + 8 then st.covFT.getD h 0 + 1 else st.covFT.getD h 0 := by
    intro h
    rw [getD_incRange, hinv.covFT_len]
  refine ⟨?_, hinv.covPT_len, ?_, hinv.capP, ?_, ?_, hinv.placedP, ?_, hinv.countP, ?_, ?_⟩
  · simp [placedFTState, length_incRange, hinv.covFT_len]
  · intro h
    simp only [placedFTState] at *
    rw [hgetF h]
    by_cases hc : h < 24 ∧ s ≤ h ∧ h < s + 8
    · have := (hhours (h - s) (by omega)).1
      rw [(by omega : s + (h - s) = h)] at this
      simp only [if_pos hc]
      omega
    · simp only [if_neg hc]
      exact hinv.capF h
  · intro h
    simp only [placedFTState] at *
    rw [hgetF h]
    by_cases hc : h < 24 ∧ s ≤ h ∧ h < s + 8
    · have := (hhours (h - s) (by omega)).2
      rw [(by omega : s + (h - s) = h)] at this
      simp only [if_pos hc]
      omega
    · simp only [if_neg hc]
      exact hinv.capSum h
  · simp only [placedFTState]
    omega
  · simp only [placedFTState, countSum_append]
    have : countSum [⟨s, s + 8, 1⟩] = 1 := rfl
    rw [this, hinv.countF]
  · intro h hh
    simp only [placedFTState] at *
    rw [hgetF h, covCount_append, ← hinv.covF_eq h hh]
    have hone : covCount h [(⟨s, s + 8, 1⟩ : Window)] = if s ≤ h ∧ h < s + 8 then 1 else 0 := by
      simp [covCount]
    rw [hone]
    by_cases hc : s ≤ h ∧ h < s + 8
    · rw [if_pos ⟨hh, hc.1, hc.2⟩, if_pos hc]
    · rw [if_neg (by tauto), if_neg hc]
      omega
  · intro h hh
    simp only [placedFTState] at *
    exact hinv.covP_eq h hh

theorem Inv_placeOnePT (limits : Limits) (ptLen : Nat) (st st' : PlanState)
    (hinv : Inv limits st) (h : placeOnePT limits ptLen st = some st') : Inv limits st' := by
  obtain ⟨s, -, hfeas, -, -, -, hplaced, rfl⟩ := placeOnePT_char limits ptLen st st' h
  obtain ⟨-, hhours⟩ := (canPlacePTAt_iff limits ptLen st s).mp hfeas
  have hgetP : ∀ h, (incRange s ptLen st.covPT).getD h 0 =
      if h < 24 ∧ s ≤ h ∧ h < s + ptLen then st.covPT.getD h 0 + 1 else st.covPT.getD h 0 := by
    intro h
    rw [getD_incRange, hinv.covPT_len]
  refine ⟨hinv.covFT_len, ?_, hinv.capF, ?_, ?_, hinv.placedF, ?_, hinv.countF, ?_, ?_, ?_⟩
  · simp [placedPTState, length_incRange, hinv.covPT_len]
  · intro h
    simp only [placedPTState] at *
    rw [hgetP h]
    by_cases hc : h < 24 ∧ s ≤ h ∧ h < s + ptLen
    · have := (hhours (h - s) (by omega)).1
      rw [(by omega : s + (h - s) = h)] at this
      simp only [if_pos hc]
      omega
    · simp only [if_neg hc]
      exact hinv.capP h
  · intro h
    simp only [placedPTState] at *
    rw [hgetP h]
    by_cases hc : h < 24 ∧ s ≤ h ∧ h < s + ptLen
    · have := (hhours (h - s) (by omega)).2
      rw [(by omega : s + (h - s) = h)] at this
      simp only [if_pos hc]
      omega
    · simp only [if_neg hc]
      exact hinv.capSum h
  · simp only [placedPTState]
    omega
  · simp only [placedPTState, countSum_append]
    have : countSum [⟨s, s + ptLen, 1⟩] = 1 := rfl
    rw [this, hinv.countP]
  · intro h hh
    simp only [placedPTState] at *
    exact hinv.covF_eq h hh
  · intro h hh
    simp only [placedPTState] at *
    rw [hgetP h, covCount_append, ← hinv.covP_eq h hh]
    have hone : covCount h [(⟨s, s + ptLen, 1⟩ : Window)] = if s ≤ h ∧ h < s + ptLen then 1 else 0 := by
      simp [covCount]
    rw [hone]
    by_cases hc : s ≤ h ∧ h < s + ptLen
    · rw [if_pos ⟨hh, hc.1, hc.2⟩, if_pos hc]
    · rw [if_neg (by tauto), if_neg hc]
      omega

/-- A `while`-style loop preserves any property its step preserves. -/
theorem loopOr_preserves {σ : Type _} (step : σ → Option σ) (P : σ → Prop)
    (hstep : ∀ s s', step s = some s' → P s → P s') :
    ∀ (fuel : Nat) (s : σ), P s → P (loopOr step fuel s) := by
  intro fuel
  induction fuel with
  | zero => intro s hp; exact hp
  | succ fuel ih =>
    intro s hp
    rw [loopOr]
    cases hstep' : step s with
    | some s' => exact ih s' (hstep s s' hstep' hp)
    | none => exact hp

theorem Inv_stepFtFirst (limits : Limits) (ptLen : Nat) (st st' : PlanState)
    (h : stepFtFirst limits ptLen st = some st') (hinv : Inv limits st) : Inv limits st' := by
  rw [stepFtFirst] at h
  cases hft : placeOneFT limits st with
  | some s1 =>
    rw [hft] at h
    cases h
    exact Inv_placeOneFT limits st st' hinv hft
  | none =>
    rw [hft] at h
    exact Inv_placeOnePT limits ptLen st st' hinv h

theorem Inv_stepPtFirst (limits : Limits) (ptLen : Nat) (st st' : PlanState)
    (h : stepPtFirst limits ptLen st = some st') (hinv : Inv limits st) : Inv limits st' := by
  rw [stepPtFirst] at h
  cases hpt : placeOnePT limits ptLen st with
  | some s1 =>
    rw [hpt] at h
    cases h
    exact Inv_placeOnePT limits ptLen st st' hinv hpt
  | none =>
    rw [hpt] at h
    exact Inv_placeOneFT limits st st' hinv h

theorem Inv_mixedStep (limits : Limits) (ptLen : Nat) (p : Int)
    (t t' : Nat × Nat × PlanState) (h : mixedStep limits ptLen p t = some t')
    (hinv : Inv limits t.2.2) : Inv limits t'.2.2 := by
  obtain ⟨ft, pt, st⟩ := t
  rw [mixedStep] at h
  simp only at h
  by_cases hsh : shareLt p ft pt = true
  · rw [if_pos hsh] at h
    cases hft : placeOneFT limits st with
    | some st1 =>
      simp only [hft] at h
      have hinv1 : Inv limits st1 := Inv_placeOneFT limits st st1 hinv hft
      cases hpt : placeOnePT limits ptLen st1 with
      | some st2 =>
        simp only [hpt] at h
        cases h
        exact Inv_placeOnePT limits ptLen st1 st2 hinv1 hpt
      | none =>
        simp only [hpt] at h
        cases h
        exact hinv1
    | none =>
      simp only [hft] at h
      cases hpt : placeOnePT limits ptLen st with
      | some st1 =>
        simp only [hpt] at h
        cases h
        exact Inv_placeOnePT limits ptLen st st1 hinv hpt
      | none =>
        simp only [hpt] at h
        cases h
  · rw [if_neg hsh] at h
    cases hpt : placeOnePT limits ptLen st with
    | some st1 =>
      simp only [hpt] at h
      have hinv1 : Inv limits st1 := Inv_placeOnePT limits ptLen st st1 hinv hpt
      cases hft : placeOneFT limits st1 with
      | some st2 =>
        simp only [hft] at h
        cases h
        exact Inv_placeOneFT limits st1 st2 hinv1 hft
      | none =>
        simp only [hft] at h
        cases h
        exact hinv1
    | none =>
      simp only [hpt] at h
      cases hft : placeOneFT limits st with
      | some st1 =>
        simp only [hft] at h
        cases h
        exact Inv_placeOneFT limits st st1 hinv hft
      | none =>
        simp only [hft] at h
        cases h

/-- The invariant holds in the initial state. -/
theorem Inv_initState (limits : Limits) (required : List Int) :
    Inv limits (initState required) := by
  have hcov : (initState required).covFT = List.replicate 24 0 := rfl
  have hcov' : (initState required).covPT = List.replicate 24 0 := rfl
  refine ⟨by rw [hcov]; exact List.length_replicate 24 0,
    by rw [hcov']; exact List.length_replicate 24 0, ?_, ?_, ?_, ?_, ?_, rfl, rfl, ?_, ?_⟩
  · intro h
    rw [hcov, getD_replicate_self]
    exact Nat.zero_le _
  · intro h
    rw [hcov', getD_replicate_self]
    exact Nat.zero_le _
  · intro h
    rw [hcov, hcov', getD_replicate_self]
    exact Nat.zero_le _
  · exact Nat.zero_le _
  · exact Nat.zero_le _
  · intro h _
    rw [hcov, getD_replicate_self]
    rfl
  · intro h _
    rw [hcov', getD_replicate_self]
    rfl

/-- The invariant holds after the placement loop, whatever the fuel. -/
theorem Inv_placeLoopWith (limits : Limits) (opts : Opts) (fuel : Nat) (st : PlanState)
    (hinv : Inv limits st) : Inv limits (placeLoopWith limits opts fuel st) := by
  rw [placeLoopWith]
  cases opts.strategy with
  | ft_first =>
    exact loopOr_preserves _ _ (fun s s' hs hp => Inv_stepFtFirst limits _ s s' hs hp) fuel st hinv
  | pt_first =>
    exact loopOr_preserves _ _ (fun s s' hs hp => Inv_stepPtFirst limits _ s s' hs hp) fuel st hinv
  | mixed =>
    exact loopOr_preserves _ (fun t => Inv limits t.2.2)
      (fun t t' ht hp => Inv_mixedStep limits _ _ t t' ht hp) fuel (0, 0, st) hinv
  | auto =>
    by_cases hw : opts.isWeekend = true
    · rw [if_pos hw]
      exact loopOr_preserves _ _ (fun s s' hs hp => Inv_stepPtFirst limits _ s s' hs hp) fuel st hinv
    · rw [if_neg hw]
      exact loopOr_preserves _ _ (fun s s' hs hp => Inv_stepFtFirst limits _ s s' hs hp) fuel st hinv

/-- The invariant holds in the planner's final state. -/
theorem Inv_finalState (required : List Int) (limits : Limits) (opts : Opts) :
    Inv limits (finalState required limits opts) :=
  Inv_placeLoopWith limits opts (loopBound limits) (initState required)
    (Inv_initState limits required)


/-- Progress measure of the placement loop: the placed-counts, clamped at the
headcount limits.  Every successful placement strictly increases it, and it
can never exceed `maxFTShifts + maxPTShifts`. -/
def muState (limits : Limits) (st : PlanState) : Nat :=
  min st.placedFT limits.maxFTShifts + min st.placedPT limits.maxPTShifts

theorem muState_le (limits : Limits) (st : PlanState) :
    muState limits st ≤ limits.maxFTShifts + limits.maxPTShifts := by
  rw [muState]
  omega

theorem mu_placeOneFT (limits : Limits) (st st' : PlanState)
    (h : placeOneFT limits st = some st') : muState limits st < muState limits st' := by
  obtain ⟨s, -, -, -, -, -, hpl, rfl⟩ := placeOneFT_char limits st st' h
  simp only [muState, placedFTState]
  omega

theorem mu_placeOnePT (limits : Limits) (ptLen : Nat) (st st' : PlanState)
    (h : placeOnePT limits ptLen st = some st') : muState limits st < muState limits st' := by
  obtain ⟨s, -, -, -, -, -, hpl, rfl⟩ := placeOnePT_char limits ptLen st st' h
  simp only [muState, placedPTState]
  omega

theorem mu_stepFtFirst (limits : Limits) (ptLen : Nat) (st st' : PlanState)
    (h : stepFtFirst limits ptLen st = some st') : muState limits st < muState limits st' := by
  rw [stepFtFirst] at h
  cases hft : placeOneFT limits st with
  | some s1 =>
    rw [hft] at h
    cases h
    exact mu_placeOneFT limits st st' hft
  | none =>
    rw [hft] at h
    exact mu_placeOnePT limits ptLen st st' h

theorem mu_stepPtFirst (limits : Limits) (ptLen : Nat) (st st' : PlanState)
    (h : stepPtFirst limits ptLen st = some st') : muState limits st < muState limits st' := by
  rw [stepPtFirst] at h
  cases hpt : placeOnePT limits ptLen st with
  | some s1 =>
    rw [hpt] at h
    cases h
    exact mu_placeOnePT limits ptLen st st' hpt
  | none =>
    rw [hpt] at h
    exact mu_placeOneFT limits st st' h

theorem mu_mixedStep (limits : Limits) (ptLen : Nat) (p : Int)
    (t t' : Nat × Nat × PlanState) (h : mixedStep limits ptLen p t = some t') :
    muState limits t.2.2 < muState limits t'.2.2 := by
  obtain ⟨ft, pt, st⟩ := t
  rw [mixedStep] at h
  simp only at h
  by_cases hsh : shareLt p ft pt = true
  · rw [if_pos hsh] at h
    cases hft : placeOneFT limits st with
    | some st1 =>
      simp only [hft] at h
      have h1 := mu_placeOneFT limits st st1 hft
      cases hpt : placeOnePT limits ptLen st1 with
      | some st2 =>
        simp only [hpt] at h
        cases h
        exact lt_trans h1 (mu_placeOnePT limits ptLen st1 st2 hpt)
      | none =>
        simp only [hpt] at h
        cases h
        exact h1
    | none =>
      simp only [hft] at h
      cases hpt : placeOnePT limits ptLen st with
      | some st1 =>
        simp only [hpt] at h
        cases h
        exact mu_placeOnePT limits ptLen st st1 hpt
      | none =>
        simp only [hpt] at h
        cases h
  · rw [if_neg hsh] at h
    cases hpt : placeOnePT limits ptLen st with
    | some st1 =>
      simp only [hpt] at h
      have h1 := mu_placeOnePT limits ptLen st st1 hpt
      cases hft : placeOneFT limits st1 with
      | some st2 =>
        simp only [hft] at h
        cases h
        exact lt_trans h1 (mu_placeOneFT limits st1 st2 hft)
      | none =>
        simp only [hft] at h
        cases h
        exact h1
    | none =>
      simp only [hpt] at h
      cases hft : placeOneFT limits st with
      | some st1 =>
        simp only [hft] at h
        cases h
        exact mu_placeOneFT limits st st1 hft
      | none =>
        simp only [hft] at h
        cases h

theorem loopOr_of_none {σ : Type _} (step : σ → Option σ) (s : σ) (h : step s = none) :
    ∀ fuel, loopOr step fuel s = s := by
  intro fuel
  cases fuel with
  | zero => rfl
  | succ fuel => rw [loopOr, h]

/-- Fuel sufficiency: once the fuel plus the current measure covers the bound,
adding more fuel cannot change the result of the loop. -/
theorem loopOr_fuel {σ : Type _} (step : σ → Option σ) (μ : σ → Nat) (B : Nat)
    (hstep : ∀ s s', step s = some s' → μ s < μ s' ∧ μ s' ≤ B) :
    ∀ (fuel k : Nat) (s : σ), B + 1 ≤ fuel + μ s →
      loopOr step (fuel + k) s = loopOr step fuel s := by
  intro fuel
  induction fuel with
  | zero =>
    intro k s hb
    cases hs : step s with
    | some s' =>
      obtain ⟨h1, h2⟩ := hstep s s' hs
      omega
    | none =>
      rw [loopOr_of_none step s hs]
      rfl
  | succ fuel ih =>
    intro k s hb
    have : fuel + 1 + k = (fuel + k) + 1 := by omega
    rw [this]
    cases hs : step s with
    | some s' =>
      rw [loopOr, hs, loopOr, hs]
      obtain ⟨h1, -⟩ := hstep s s' hs
      exact ih k s' (by omega)
    | none =>
      rw [loopOr, hs, loopOr, hs]

/-- The implicit loop invariant of C10: the deficit vector is pointwise
`max(0, required[h] - (covFT[h] + covPT[h]))`, and the three working arrays
keep their 24-entry (resp. input-sized) shape. -/
def DeficitInv (required : List Int) (st : PlanState) : Prop :=
  st.deficit.length = 24 ∧ st.covFT.length = 24 ∧ st.covPT.length = 24 ∧
  ∀ h, h < 24 → st.deficit.getD h 0 =
    max 0 (required.getD h 0 - ((st.covFT.getD h 0 : Int) + (st.covPT.getD h 0 : Int)))

theorem DeficitInv_placeOneFT (required : List Int) (limits : Limits) (st st' : PlanState)
    (hd : DeficitInv required st) (h : placeOneFT limits st = some st') :
    DeficitInv required st' := by
  obtain ⟨s, -, -, -, -, -, -, rfl⟩ := placeOneFT_char limits st st' h
  obtain ⟨hdl, hfl, hpl, hrel⟩ := hd
  refine ⟨?_, ?_, ?_, ?_⟩
  · simp only [placedFTState]
    rw [length_decFloorRange, hdl]
  · simp only [placedFTState]
    rw [length_incRange, hfl]
  · simp only [placedFTState]
    exact hpl
  · intro h hh
    simp only [placedFTState]
    rw [getD_decFloorRange, getD_incRange, hdl, hfl]
    by_cases hc : s ≤ h ∧ h < s + 8
    · rw [if_pos ⟨hh, hc.1, hc.2⟩, if_pos ⟨hh, hc.1, hc.2⟩, hrel h hh]
      push_cast
      omega
    · rw [if_neg (by tauto), if_neg (by tauto)]
      exact hrel h hh

theorem DeficitInv_placeOnePT (required : List Int) (limits : Limits) (ptLen : Nat)
    (st st' : PlanState) (hd : DeficitInv required st)
    (h : placeOnePT limits ptLen st = some st') : DeficitInv required st' := by
  obtain ⟨s, -, -, -, -, -, -, rfl⟩ := placeOnePT_char limits ptLen st st' h
  obtain ⟨hdl, hfl, hpl, hrel⟩ := hd
  refine ⟨?_, ?_, ?_, ?_⟩
  · simp only [placedPTState]
    rw [length_decFloorRange, hdl]
  · simp only [placedPTState]
    exact hfl
  · simp only [placedPTState]
    rw [length_incRange, hpl]
  · intro h hh
    simp only [placedPTState]
    rw [getD_decFloorRange, getD_incRange, hdl, hpl]
    by_cases hc : s ≤ h ∧ h < s + ptLen
    · rw [if_pos ⟨hh, hc.1, hc.2⟩, if_pos ⟨hh, hc.1, hc.2⟩, hrel h hh]
      push_cast
      omega
    · rw [if_neg (by tauto), if_neg (by tauto)]
      exact hrel h hh

/-- Any property preserved by both single-placement operations is preserved by
one iteration of every strategy's loop body, and hence by the whole loop. -/
theorem placeLoopWith_preserves (limits : Limits) (opts : Opts) (P : PlanState → Prop)
    (hF : ∀ st st', placeOneFT limits st = some st' → P st → P st')
    (hP : ∀ st st', placeOnePT limits opts.ptLenHours st = some st' → P st → P st') :
    ∀ (fuel : Nat) (st : PlanState), P st → P (placeLoopWith limits opts fuel st) := by
  have hstepF : ∀ st st', stepFtFirst limits opts.ptLenHours st = some st' → P st → P st' := by
    intro st st' h hp
    rw [stepFtFirst] at h
    cases hft : placeOneFT limits st with
    | some s1 =>
      rw [hft] at h
      cases h
      exact hF st st' hft hp
    | none =>
      rw [hft] at h
      exact hP st st' h hp
  have hstepP : ∀ st st', stepPtFirst limits opts.ptLenHours st = some st' → P st → P st' := by
    intro st st' h hp
    rw [stepPtFirst] at h
    cases hpt : placeOnePT limits opts.ptLenHours st with
    | some s1 =>
      rw [hpt] at h
      cases h
      exact hP st st' hpt hp
    | none =>
      rw [hpt] at h
      exact hF st st' h hp
  have hstepM : ∀ p t t', mixedStep limits opts.ptLenHours p t = some t' →
      P t.2.2 → P t'.2.2 := by
    intro p t t' h hp
    obtain ⟨ft, pt, st⟩ := t
    rw [mixedStep] at h
    simp only at h
    by_cases hsh : shareLt p ft pt = true
    · rw [if_pos hsh] at h
      cases hft : placeOneFT limits st with
      | some st1 =>
        simp only [hft] at h
        have hp1 : P st1 := hF st st1 hft hp
        cases hpt : placeOnePT limits opts.ptLenHours st1 with
        | some st2 =>
          simp only [hpt] at h
          cases h
          exact hP st1 st2 hpt hp1
        | none =>
          simp only [hpt] at h
          cases h
          exact hp1
      | none =>
        simp only [hft] at h
        cases hpt : placeOnePT limits opts.ptLenHours st with
        | some st1 =>
          simp only [hpt] at h
          cases h
          exact hP st st1 hpt hp
        | none =>
          simp only [hpt] at h
          cases h
    · rw [if_neg hsh] at h
      cases hpt : placeOnePT limits opts.ptLenHours st with
      | some st1 =>
        simp only [hpt] at h
        have hp1 : P st1 := hP st st1 hpt hp
        cases hft : placeOneFT limits st1 with
        | some st2 =>
          simp only [hft] at h
          cases h
          exact hF st1 st2 hft hp1
        | none =>
          simp only [hft] at h
          cases h
          exact hp1
      | none =>
        simp only [hpt] at h
        cases hft : placeOneFT limits st with
        | some st1 =>
          simp only [hft] at h
          cases h
          exact hF st st1 hft hp
        | none =>
          simp only [hft] at h
          cases h
  intro fuel st hp
  rw [placeLoopWith]
  cases opts.strategy with
  | ft_first => exact loopOr_preserves _ _ hstepF fuel st hp
  | pt_first => exact loopOr_preserves _ _ hstepP fuel st hp
  | mixed =>
    exact loopOr_preserves _ (fun t => P t.2.2) (fun t t' ht hq => hstepM _ t t' ht hq)
      fuel (0, 0, st) hp
  | auto =>
    by_cases hw : opts.isWeekend = true
    · rw [if_pos hw]
      exact loopOr_preserves _ _ hstepP fuel st hp
    · rw [if_neg hw]
      exact loopOr_preserves _ _ hstepF fuel st hp

theorem getD_zipWith_add :
    ∀ (a b : List Nat), a.length = b.length → ∀ h : Nat,
      (List.zipWith (· + ·) a b).getD h 0 = a.getD h 0 + b.getD h 0 := by
  intro a
  induction a with
  | nil =>
    intro b hb h
    cases b with
    | nil => simp
    | cons y ys => simp at hb
  | cons x xs ih =>
    intro b hb h
    cases b with
    | nil => simp at hb
    | cons y ys =>
      cases h with
      | zero => simp
      | succ h =>
        simp only [List.zipWith_cons_cons, List.getD_cons_succ]
        exact ih ys (by simpa using hb) h

theorem plan_shiftsFT (required : List Int) (limits : Limits) (opts : Opts) :
    (buildShiftPlanStrategic required limits opts).shiftsFT =
      merge (finalState required limits opts).shiftsFT := rfl

theorem plan_shiftsPT (required : List Int) (limits : Limits) (opts : Opts) :
    (buildShiftPlanStrategic required limits opts).shiftsPT =
      merge (finalState required limits opts).shiftsPT := rfl

theorem plan_coverage (required : List Int) (limits : Limits) (opts : Opts) :
    (buildShiftPlanStrategic required limits opts).coverage =
      List.zipWith (· + ·) (finalState required limits opts).covFT
        (finalState required limits opts).covPT := rfl

theorem plan_required (required : List Int) (limits : Limits) (opts : Opts) :
    (buildShiftPlanStrategic required limits opts).required = required := rfl

theorem plan_shortage (required : List Int) (limits : Limits) (opts : Opts) :
    (buildShiftPlanStrategic required limits opts).shortage =
      mapWithIndexFrom (fun (h : Nat) (c : Nat) => max 0 (required.getD h 0 - (c : Int))) 0
        (buildShiftPlanStrategic required limits opts).coverage := rfl

theorem plan_excess (required : List Int) (limits : Limits) (opts : Opts) :
    (buildShiftPlanStrategic required limits opts).excess =
      mapWithIndexFrom (fun (h : Nat) (c : Nat) => max 0 ((c : Int) - required.getD h 0)) 0
        (buildShiftPlanStrategic required limits opts).coverage := rfl

theorem coverage_length (required : List Int) (limits : Limits) (opts : Opts) :
    (buildShiftPlanStrategic required limits opts).coverage.length = 24 := by
  have hinv := Inv_finalState required limits opts
  rw [plan_coverage, List.length_zipWith, hinv.covFT_len, hinv.covPT_len]
  rfl

theorem coverage_getD (required : List Int) (limits : Limits) (opts : Opts) (h : Nat) :
    (buildShiftPlanStrategic required limits opts).coverage.getD h 0 =
      (finalState required limits opts).covFT.getD h 0 +
      (finalState required limits opts).covPT.getD h 0 := by
  have hinv := Inv_finalState required limits opts
  rw [plan_coverage]
  exact getD_zipWith_add _ _ (by rw [hinv.covFT_len, hinv.covPT_len]) h

/-- C1: for every integer requirement vector, every limits record of
non-negative integers and every strategy/PT-length option, the hourly coverage
implied by the returned shift windows never exceeds the per-class caps nor
their sum, at any hour `h` in `0..23`. -/
theorem C1_cap_invariant (required : List Int) (limits : Limits) (opts : Opts)
    (h : Nat) (hh : h < 24) :
    covCount h (buildShiftPlanStrategic required limits opts).shiftsFT ≤ limits.capFT ∧
    covCount h (buildShiftPlanStrategic required limits opts).shiftsPT ≤ limits.capPT ∧
    covCount h (buildShiftPlanStrategic required limits opts).shiftsFT +
      covCount h (buildShiftPlanStrategic required limits opts).shiftsPT ≤
      limits.capFT + limits.capPT := by
  have hinv := Inv_finalState required limits opts
  rw [plan_shiftsFT, plan_shiftsPT, covCount_merge, covCount_merge,
    ← hinv.covF_eq h hh, ← hinv.covP_eq h hh]
  exact ⟨hinv.capF h, hinv.capP h, hinv.capSum h⟩

/-- Example inputs used by the witnesses: a morning-heavy requirement, caps
2 FT / 1 PT concurrent, 2 shifts of each class, FT-first strategy, 4h PT. -/
def reqEx : List Int := [0,0,0,0,0,0,0,0,3,3,3,3,2,2,2,2,0,0,0,0,0,0,0,0]

def limEx : Limits := ⟨2, 1, 2, 2⟩

def optEx : Opts := ⟨Strategy.ft_first, 60, false, 4⟩

theorem C1_cap_invariant_witness :
    covCount 9 (buildShiftPlanStrategic reqEx limEx optEx).shiftsFT ≤ limEx.capFT ∧
    covCount 9 (buildShiftPlanStrategic reqEx limEx optEx).shiftsPT ≤ limEx.capPT ∧
    covCount 9 (buildShiftPlanStrategic reqEx limEx optEx).shiftsFT +
      covCount 9 (buildShiftPlanStrategic reqEx limEx optEx).shiftsPT ≤
      limEx.capFT + limEx.capPT :=
  C1_cap_invariant reqEx limEx optEx 9 (by decide)

/-- C2: the total number of FT shifts placed (sum of `count` over the returned
FT windows) is at most `maxFTShifts`, and likewise for PT. -/
theorem C2_headcount_invariant (required : List Int) (limits : Limits) (opts : Opts) :
    countSum (buildShiftPlanStrategic required limits opts).shiftsFT ≤ limits.maxFTShifts ∧
    countSum (buildShiftPlanStrategic required limits opts).shiftsPT ≤ limits.maxPTShifts := by
  have hinv := Inv_finalState required limits opts
  rw [plan_shiftsFT, plan_shiftsPT, countSum_merge, countSum_merge, hinv.countF, hinv.countP]
  exact ⟨hinv.placedF, hinv.placedP⟩

/-- C3: the returned `PlanResult` is internally consistent: `coverage[h]` is
the summed count of returned windows (both classes) covering `h`, and
`shortage[h]` / `excess[h]` are the clamped differences with `required[h]`. -/
theorem C3_plan_consistency (required : List Int) (limits : Limits) (opts : Opts)
    (h : Nat) (hh : h < 24) :
    ((buildShiftPlanStrategic required limits opts).coverage.getD h 0 =
      covCount h (buildShiftPlanStrategic required limits opts).shiftsFT +
      covCount h (buildShiftPlanStrategic required limits opts).shiftsPT) ∧
    ((buildShiftPlanStrategic required limits opts).shortage.getD h 0 =
      max 0 ((buildShiftPlanStrategic required limits opts).required.getD h 0 -
        ((buildShiftPlanStrategic required limits opts).coverage.getD h 0 : Int))) ∧
    ((buildShiftPlanStrategic required limits opts).excess.getD h 0 =
      max 0 (((buildShiftPlanStrategic required limits opts).coverage.getD h 0 : Int) -
        (buildShiftPlanStrategic required limits opts).required.getD h 0)) := by
  have hinv := Inv_finalState required limits opts
  have hlen := coverage_length required limits opts
  refine ⟨?_, ?_, ?_⟩
  · rw [coverage_getD, plan_shiftsFT, plan_shiftsPT, covCount_merge, covCount_merge,
      ← hinv.covF_eq h hh, ← hinv.covP_eq h hh]
  · rw [plan_shortage, getD_mapWithIndexFrom
      (fun (h : Nat) (c : Nat) => max 0 (required.getD h 0 - (c : Int))) (0 : Nat) (0 : Int)
      ((buildShiftPlanStrategic required limits opts).coverage) 0 h, hlen, if_pos hh,
      plan_required, Nat.zero_add]
  · rw [plan_excess, getD_mapWithIndexFrom
      (fun (h : Nat) (c : Nat) => max 0 ((c : Int) - required.getD h 0)) (0 : Nat) (0 : Int)
      ((buildShiftPlanStrategic required limits opts).coverage) 0 h, hlen, if_pos hh,
      plan_required, Nat.zero_add]

theorem C3_plan_consistency_witness :
    ((buildShiftPlanStrategic reqEx limEx optEx).coverage.getD 8 0 =
      covCount 8 (buildShiftPlanStrategic reqEx limEx optEx).shiftsFT +
      covCount 8 (buildShiftPlanStrategic reqEx limEx optEx).shiftsPT) ∧
    ((buildShiftPlanStrategic reqEx limEx optEx).shortage.getD 8 0 =
      max 0 ((buildShiftPlanStrategic reqEx limEx optEx).required.getD 8 0 -
        ((buildShiftPlanStrategic reqEx limEx optEx).coverage.getD 8 0 : Int))) ∧
    ((buildShiftPlanStrategic reqEx limEx optEx).excess.getD 8 0 =
      max 0 (((buildShiftPlanStrategic reqEx limEx optEx).coverage.getD 8 0 : Int) -
        (buildShiftPlanStrategic reqEx limEx optEx).required.getD 8 0)) :=
  C3_plan_consistency reqEx limEx optEx 8 (by decide)

theorem placeLoopWith_fuel (limits : Limits) (opts : Opts) (st : PlanState) (k : Nat) :
    placeLoopWith limits opts (loopBound limits + k) st = placeLoop limits opts st := by
  obtain ⟨strat, mfp, wk, ptl⟩ := opts
  rw [placeLoop]
  cases strat with
  | ft_first =>
    simp only [placeLoopWith]
    exact loopOr_fuel _ (muState limits) (limits.maxFTShifts + limits.maxPTShifts)
      (fun s s' hs => ⟨mu_stepFtFirst limits ptl s s' hs, muState_le limits s'⟩)
      (loopBound limits) k st (by rw [loopBound]; omega)
  | pt_first =>
    simp only [placeLoopWith]
    exact loopOr_fuel _ (muState limits) (limits.maxFTShifts + limits.maxPTShifts)
      (fun s s' hs => ⟨mu_stepPtFirst limits ptl s s' hs, muState_le limits s'⟩)
      (loopBound limits) k st (by rw [loopBound]; omega)
  | mixed =>
    simp only [placeLoopWith]
    exact congrArg (fun t => t.2.2)
      (loopOr_fuel _ (fun t : Nat × Nat × PlanState => muState limits t.2.2)
        (limits.maxFTShifts + limits.maxPTShifts)
        (fun t t' ht => ⟨mu_mixedStep limits ptl (clampPct mfp) t t' ht,
          muState_le limits t'.2.2⟩)
        (loopBound limits) k (0, 0, st) (by rw [loopBound]; omega))
  | auto =>
    cases wk with
    | false =>
      simp only [placeLoopWith, Bool.false_eq_true, if_false]
      exact loopOr_fuel _ (muState limits) (limits.maxFTShifts + limits.maxPTShifts)
        (fun s s' hs => ⟨mu_stepFtFirst limits ptl s s' hs, muState_le limits s'⟩)
        (loopBound limits) k st (by rw [loopBound]; omega)
    | true =>
      simp only [placeLoopWith, if_true]
      exact loopOr_fuel _ (muState limits) (limits.maxFTShifts + limits.maxPTShifts)
        (fun s s' hs => ⟨mu_stepPtFirst limits ptl s s' hs, muState_le limits s'⟩)
        (loopBound limits) k st (by rw [loopBound]; omega)

/-- C8: the placement loop terminates within `maxFTShifts + maxPTShifts + 2`
outer iterations: running it with any amount of extra fuel beyond that bound
returns the very same state, under every strategy. -/
theorem C8_termination_bound (required : List Int) (limits : Limits) (opts : Opts) (k : Nat) :
    placeLoopWith limits opts (loopBound limits + k) (initState required) =
      placeLoop limits opts (initState required) :=
  placeLoopWith_fuel limits opts (initState required) k

/-- C9: the planner and the roster builder are deterministic — equal inputs
give equal outputs (they are pure functions of their arguments). -/
theorem C9_deterministic (r1 r2 : List Int) (l1 l2 : Limits) (o1 o2 : Opts)
    (f1 f2 p1 p2 : List Window) (m1 m2 : Option Int)
    (hr : r1 = r2) (hl : l1 = l2) (ho : o1 = o2) (hf : f1 = f2) (hp : p1 = p2) (hm : m1 = m2) :
    buildShiftPlanStrategic r1 l1 o1 = buildShiftPlanStrategic r2 l2 o2 ∧
    buildRoster f1 p1 m1 = buildRoster f2 p2 m2 := by
  subst hr hl ho hf hp hm
  exact ⟨rfl, rfl⟩

theorem C9_deterministic_witness :
    buildShiftPlanStrategic reqEx limEx optEx = buildShiftPlanStrategic reqEx limEx optEx ∧
    buildRoster [⟨9, 17, 2⟩] [⟨10, 14, 1⟩] (some 30) =
      buildRoster [⟨9, 17, 2⟩] [⟨10, 14, 1⟩] (some 30) :=
  C9_deterministic reqEx reqEx limEx limEx optEx optEx
    [⟨9, 17, 2⟩] [⟨9, 17, 2⟩] [⟨10, 14, 1⟩] [⟨10, 14, 1⟩] (some 30) (some 30)
    rfl rfl rfl rfl rfl rfl

/-- C10: throughout the placement loop `deficit[h] = max(0, required[h] -
(covFT[h] + covPT[h]))` for every hour: the relation is preserved by each
single placement of either class, holds initially, is maintained by the loop
under any fuel and strategy, and consequently the final deficit vector is
non-negative and equals the returned shortage vector. -/
theorem C10_deficit_invariant (required : List Int) (limits : Limits) (opts : Opts)
    (hlen : required.length = 24) (hnn : ∀ x ∈ required, 0 ≤ x) :
    (∀ st st', DeficitInv required st → placeOneFT limits st = some st' →
      DeficitInv required st') ∧
    (∀ ptLen st st', DeficitInv required st → placeOnePT limits ptLen st = some st' →
      DeficitInv required st') ∧
    DeficitInv required (initState required) ∧
    (∀ fuel st, DeficitInv required st → DeficitInv required (placeLoopWith limits opts fuel st)) ∧
    (∀ h, h < 24 →
      0 ≤ (finalState required limits opts).deficit.getD h 0 ∧
      (buildShiftPlanStrategic required limits opts).shortage.getD h 0 =
        (finalState required limits opts).deficit.getD h 0) := by
  have hinit : DeficitInv required (initState required) := by
    refine ⟨hlen, rfl, rfl, ?_⟩
    intro h hh
    have hcov : (initState required).covFT = List.replicate 24 0 := rfl
    have hcov' : (initState required).covPT = List.replicate 24 0 := rfl
    have hdef : (initState required).deficit = required := rfl
    rw [hcov, hcov', hdef, getD_replicate_self]
    have hpos : 0 ≤ required.getD h 0 := by
      rw [List.getD_eq_getElem _ _ (by omega : h < required.length)]
      exact hnn _ (List.getElem_mem _)
    push_cast
    omega
  have hloop : ∀ fuel st, DeficitInv required st →
      DeficitInv required (placeLoopWith limits opts fuel st) :=
    placeLoopWith_preserves limits opts (DeficitInv required)
      (fun st st' h hd => DeficitInv_placeOneFT required limits st st' hd h)
      (fun st st' h hd => DeficitInv_placeOnePT required limits opts.ptLenHours st st' hd h)
  have hfin : DeficitInv required (finalState required limits opts) := by
    rw [finalState, placeLoop]
    exact hloop (loopBound limits) (initState required) hinit
  refine ⟨fun st st' hd h => DeficitInv_placeOneFT required limits st st' hd h,
    fun ptLen st st' hd h => DeficitInv_placeOnePT required limits ptLen st st' hd h,
    hinit, hloop, ?_⟩
  intro h hh
  obtain ⟨hdl, hfl, hpl, hrel⟩ := hfin
  constructor
  · rw [hrel h hh]
    exact le_max_left _ _
  · have hlenc := coverage_length required limits opts
    rw [plan_shortage, getD_mapWithIndexFrom
      (fun (h : Nat) (c : Nat) => max 0 (required.getD h 0 - (c : Int))) (0 : Nat) (0 : Int)
      ((buildShiftPlanStrategic required limits opts).coverage) 0 h, hlenc, if_pos hh,
      Nat.zero_add, coverage_getD, hrel h hh]
    push_cast
    rfl

theorem C10_deficit_invariant_witness :
    (∀ st st', DeficitInv reqEx st → placeOneFT limEx st = some st' →
      DeficitInv reqEx st') ∧
    (∀ ptLen st st', DeficitInv reqEx st → placeOnePT limEx ptLen st = some st' →
      DeficitInv reqEx st') ∧
    DeficitInv reqEx (initState reqEx) ∧
    (∀ fuel st, DeficitInv reqEx st → DeficitInv reqEx (placeLoopWith limEx optEx fuel st)) ∧
    (∀ h, h < 24 →
      0 ≤ (finalState reqEx limEx optEx).deficit.getD h 0 ∧
      (buildShiftPlanStrategic reqEx limEx optEx).shortage.getD h 0 =
        (finalState reqEx limEx optEx).deficit.getD h 0) :=
  C10_deficit_invariant reqEx limEx optEx (by decide) (by decide)

/-- C5: the orchestrator's resolution of the total-shift limits: a blank
total makes the limit equal the resolved cap, and a supplied non-negative
integer total (including zero, since the string `'0'` is truthy) is taken
verbatim. -/
theorem C5_limit_resolution (peak : Int) (capFT capPT : Option Int) (t : Int) (ht : 0 ≤ t) :
    resolveMaxFTShifts peak capFT none = resolveCapFT peak capFT ∧
    resolveMaxPTShifts capPT none = resolveCapPT capPT ∧
    resolveMaxFTShifts peak capFT (some t) = t ∧
    resolveMaxPTShifts capPT (some t) = t := by
  refine ⟨rfl, rfl, ?_, ?_⟩
  · rw [resolveMaxFTShifts, firstNonBlank]
    simp only [Option.getD_some]
    omega
  · rw [resolveMaxPTShifts, firstNonBlank]
    simp only [Option.getD_some]
    omega

theorem C5_limit_resolution_witness :
    resolveMaxFTShifts 7 (some 5) none = resolveCapFT 7 (some 5) ∧
    resolveMaxPTShifts (some 3) none = resolveCapPT (some 3) ∧
    resolveMaxFTShifts 7 (some 5) (some 0) = 0 ∧
    resolveMaxPTShifts (some 3) (some 0) = 0 :=
  C5_limit_resolution 7 (some 5) (some 3) 0 (by decide)

/-- C4: each single-shift placement attempt scans the ascending feasible
starts (FT `0..16`, PT `0..24-ptLen`), places at a feasible start of positive
score that is maximal and strictly beats every smaller feasible start (ties
break to the smallest start hour, as `>` is used against the running best),
appending a count-1 window, bumping that class's coverage over the window,
decrementing the deficit floored at 0, and incrementing the placed-count
(`placedFTState`/`placedPTState`); a placement returns `none` (no state
change) exactly when the class's headcount is exhausted or every feasible
start scores `≤ 0`.  Each of the four parts is quantified over an arbitrary
state of its own, so the characterisation covers every FT or PT placement
attempt wherever it occurs in any strategy's loop. -/
theorem C4_placement_step (limits : Limits) (ptLen : Nat) :
    (∀ st stF : PlanState, placeOneFT limits st = some stF →
      ∃ s, s < 17 ∧ canPlaceFTAt limits st s = true ∧ 0 < scoreWindow limits st s 8 true ∧
        (∀ t, t < 17 → canPlaceFTAt limits st t = true →
          scoreWindow limits st t 8 true ≤ scoreWindow limits st s 8 true) ∧
        (∀ t, t < s → canPlaceFTAt limits st t = true →
          scoreWindow limits st t 8 true < scoreWindow limits st s 8 true) ∧
        stF = placedFTState st s) ∧
    (∀ st stP : PlanState, placeOnePT limits ptLen st = some stP →
      ∃ s, s < 24 - ptLen + 1 ∧ canPlacePTAt limits ptLen st s = true ∧
        0 < scoreWindow limits st s ptLen false ∧
        (∀ t, t < 24 - ptLen + 1 → canPlacePTAt limits ptLen st t = true →
          scoreWindow limits st t ptLen false ≤ scoreWindow limits st s ptLen false) ∧
        (∀ t, t < s → canPlacePTAt limits ptLen st t = true →
          scoreWindow limits st t ptLen false < scoreWindow limits st s ptLen false) ∧
        stP = placedPTState ptLen st s) ∧
    (∀ st2 : PlanState, placeOneFT limits st2 = none ↔
      limits.maxFTShifts ≤ st2.placedFT ∨
      ∀ t, t < 17 → canPlaceFTAt limits st2 t = true → scoreWindow limits st2 t 8 true ≤ 0) ∧
    (∀ st2 : PlanState, placeOnePT limits ptLen st2 = none ↔
      limits.maxPTShifts ≤ st2.placedPT ∨
      ∀ t, t < 24 - ptLen + 1 → canPlacePTAt limits ptLen st2 t = true →
        scoreWindow limits st2 t ptLen false ≤ 0) := by
  refine ⟨?_, ?_, fun st2 => placeOneFT_none_iff limits st2,
    fun st2 => placeOnePT_none_iff limits ptLen st2⟩
  · intro st stF hF
    obtain ⟨s, hs, hfeas, hpos, hmax, htie, -, heq⟩ := placeOneFT_char limits st stF hF
    exact ⟨s, hs, hfeas, hpos, hmax, htie, heq⟩
  · intro st stP hP
    obtain ⟨s, hs, hfeas, hpos, hmax, htie, -, heq⟩ := placeOnePT_char limits ptLen st stP hP
    exact ⟨s, hs, hfeas, hpos, hmax, htie, heq⟩

/-- Concrete states for the C4 witness: the result of one FT (resp. PT)
placement from the initial example state. -/
def stFEx : PlanState := (placeOneFT limEx (initState reqEx)).getD (initState reqEx)

def stPEx : PlanState := (placeOnePT limEx 4 (initState reqEx)).getD (initState reqEx)

theorem C4_placement_step_witness :
    (∃ s, s < 17 ∧ canPlaceFTAt limEx (initState reqEx) s = true ∧
      0 < scoreWindow limEx (initState reqEx) s 8 true ∧
      (∀ t, t < 17 → canPlaceFTAt limEx (initState reqEx) t = true →
        scoreWindow limEx (initState reqEx) t 8 true ≤
          scoreWindow limEx (initState reqEx) s 8 true) ∧
      (∀ t, t < s → canPlaceFTAt limEx (initState reqEx) t = true →
        scoreWindow limEx (initState reqEx) t 8 true <
          scoreWindow limEx (initState reqEx) s 8 true) ∧
      stFEx = placedFTState (initState reqEx) s) ∧
    (∃ s, s < 24 - 4 + 1 ∧ canPlacePTAt limEx 4 (initState reqEx) s = true ∧
      0 < scoreWindow limEx (initState reqEx) s 4 false ∧
      (∀ t, t < 24 - 4 + 1 → canPlacePTAt limEx 4 (initState reqEx) t = true →
        scoreWindow limEx (initState reqEx) t 4 false ≤
          scoreWindow limEx (initState reqEx) s 4 false) ∧
      (∀ t, t < s → canPlacePTAt limEx 4 (initState reqEx) t = true →
        scoreWindow limEx (initState reqEx) t 4 false <
          scoreWindow limEx (initState reqEx) s 4 false) ∧
      stPEx = placedPTState 4 (initState reqEx) s) ∧
    (∀ st2 : PlanState, placeOneFT limEx st2 = none ↔
      limEx.maxFTShifts ≤ st2.placedFT ∨
      ∀ t, t < 17 → canPlaceFTAt limEx st2 t = true →
        scoreWindow limEx st2 t 8 true ≤ 0) ∧
    (∀ st2 : PlanState, placeOnePT limEx 4 st2 = none ↔
      limEx.maxPTShifts ≤ st2.placedPT ∨
      ∀ t, t < 24 - 4 + 1 → canPlacePTAt limEx 4 st2 t = true →
        scoreWindow limEx st2 t 4 false ≤ 0) := by
  obtain ⟨h1, h2, h3, h4⟩ := C4_placement_step limEx 4
  exact ⟨h1 (initState reqEx) stFEx (by decide), h2 (initState reqEx) stPEx (by decide), h3, h4⟩

/-- A planner run whose shortage vector is identically zero (24 entries). -/
def planZeroEx : PlanResult := buildShiftPlanStrategic (List.replicate 24 0) limEx optEx

/-- C6 counterexample: a plan with no shortage at all (the shortage vector is
24 zeros, total zero) still receives a hire recommendation — the guard
`!plan?.shortage?.length` only fires on an absent or empty array, not on an
all-zero one, so "returns none exactly when there is no shortage" is false. -/
theorem C6_hire_recommendation_counterexample :
    planZeroEx.shortage = List.replicate 24 0 ∧
    planZeroEx.shortage.foldl (· + ·) 0 = 0 ∧
    computeHireRecommendations planZeroEx 4 ≠ none := by
  refine ⟨by decide, by decide, by decide⟩

/-- C6 (amended): `computeHireRecommendations` returns `none` exactly when the
shortage array is empty — in particular a 24-hour plan with zero shortage
everywhere still returns a recommendation — and whenever it returns a
recommendation, the fields satisfy exactly the claimed formulas, with
`totalShort` the sum of the shortage vector. -/
theorem C6_hire_recommendation (plan : PlanResult) (ptLenHours : Int)
    (htot : plan.totalShortUnits = plan.shortage.foldl (· + ·) 0) :
    (computeHireRecommendations plan ptLenHours = none ↔ plan.shortage = []) ∧
    (∀ r, computeHireRecommendations plan ptLenHours = some r →
      r.totalShort = plan.shortage.foldl (· + ·) 0 ∧
      r.peakShort = plan.shortage.foldl max 0 ∧
      r.minFT8 = max (ceilDiv r.totalShort 8) r.peakShort ∧
      r.minPTcur = ceilDiv r.totalShort ptLenHours ∧
      r.minPT4 = ceilDiv r.totalShort 4 ∧
      r.minPT6 = ceilDiv r.totalShort 6 ∧
      r.mixed.ft = max r.peakShort (r.totalShort.fdiv 8) ∧
      r.mixed.pt = ceilDiv (max 0 (r.totalShort - r.mixed.ft * 8)) ptLenHours ∧
      r.mixed.ptLenHours = ptLenHours) := by
  by_cases hc : plan.shortage.length = 0
  · constructor
    · simp only [computeHireRecommendations]
      rw [if_pos hc]
      simp [List.length_eq_zero.mp hc]
    · intro r hr
      simp only [computeHireRecommendations] at hr
      rw [if_pos hc] at hr
      exact absurd hr (by simp)
  · constructor
    · simp only [computeHireRecommendations]
      rw [if_neg hc]
      constructor
      · intro h
        exact absurd h (by simp)
      · intro h
        exact absurd (by rw [h]; rfl : plan.shortage.length = 0) hc
    · intro r hr
      simp only [computeHireRecommendations] at hr
      rw [if_neg hc] at hr
      obtain rfl := Option.some.inj hr
      exact ⟨htot, rfl, rfl, rfl, rfl, rfl, rfl, rfl, rfl⟩

/-- A planner run that leaves a real shortage (caps 1 FT, 0 PT). -/
def planShortEx : PlanResult := buildShiftPlanStrategic reqEx ⟨1, 0, 1, 0⟩ optEx

theorem C6_hire_recommendation_witness :
    (computeHireRecommendations planShortEx 4 = none ↔ planShortEx.shortage = []) ∧
    (∀ r, computeHireRecommendations planShortEx 4 = some r →
      r.totalShort = planShortEx.shortage.foldl (· + ·) 0 ∧
      r.peakShort = planShortEx.shortage.foldl max 0 ∧
      r.minFT8 = max (ceilDiv r.totalShort 8) r.peakShort ∧
      r.minPTcur = ceilDiv r.totalShort 4 ∧
      r.minPT4 = ceilDiv r.totalShort 4 ∧
      r.minPT6 = ceilDiv r.totalShort 6 ∧
      r.mixed.ft = max r.peakShort (r.totalShort.fdiv 8) ∧
      r.mixed.pt = ceilDiv (max 0 (r.totalShort - r.mixed.ft * 8)) 4 ∧
      r.mixed.ptLenHours = 4) :=
  C6_hire_recommendation planShortEx 4 rfl

theorem addEntry_start (type : String) (id : Nat) (a b : Nat) (L : Option Int) :
    (addEntry type id a b L).start = a := rfl

theorem addEntry_stop (type : String) (id : Nat) (a b : Nat) (L : Option Int) :
    (addEntry type id a b L).«end» = b := rfl

/-- Arithmetic core of the roster lunch computation: the clamped lunch window
always lies inside the shift, and when the lunch fits in the shift no clamping
occurs, so the stored values are exactly the snapped start and its offset by
the lunch duration. -/
theorem addEntry_spec (type : String) (id : Nat) (a b : Nat) (Lv : Int)
    (hab : a ≤ b) (hL : 0 ≤ Lv) :
    ((a : Int) * 60 ≤ (addEntry type id a b (some Lv)).lunchStart ∧
     (addEntry type id a b (some Lv)).lunchStart ≤ (b : Int) * 60 ∧
     (a : Int) * 60 ≤ (addEntry type id a b (some Lv)).lunchEnd ∧
     (addEntry type id a b (some Lv)).lunchEnd ≤ (b : Int) * 60) ∧
    (Lv ≤ ((b : Int) - (a : Int)) * 60 →
      (addEntry type id a b (some Lv)).lunchStart =
        snap30 (2 * ((a : Int) * 60) + ((b : Int) - (a : Int)) * 60 - Lv) ∧
      (addEntry type id a b (some Lv)).lunchEnd =
        (addEntry type id a b (some Lv)).lunchStart + Lv) := by
  have hcast : (((b - a) * 60 : Nat) : Int) = ((b : Int) - (a : Int)) * 60 := by
    rw [Nat.cast_mul, Nat.cast_sub hab]
    norm_num
  have hba : (a : Int) ≤ (b : Int) := by exact_mod_cast hab
  simp only [addEntry, Option.getD_some, snap30, max_eq_right hL, hcast]
  rw [Int.fdiv_eq_ediv _ (by norm_num : (0 : Int) ≤ 60)]
  constructor
  · refine ⟨le_max_left _ _, ?_, ?_, min_le_left _ _⟩
    · omega
    · omega
  · intro hfit
    constructor
    · omega
    · omega

theorem mem_rosterFor (type : String) (L : Option Int) :
    ∀ (shifts : List Window) (id0 : Nat) (e : RosterEntry),
      e ∈ (rosterFor type L shifts id0).1 →
      ∃ w ∈ shifts, ∃ id, e = addEntry type id w.start w.«end» L := by
  intro shifts
  induction shifts with
  | nil =>
    intro id0 e he
    simp [rosterFor] at he
  | cons w rest ih =>
    intro id0 e he
    simp only [rosterFor] at he
    rw [List.mem_append] at he
    rcases he with he | he
    · rw [List.mem_map] at he
      obtain ⟨k, -, rfl⟩ := he
      exact ⟨w, List.mem_cons_self _ _, id0 + k, rfl⟩
    · obtain ⟨w2, hw2, id, heq⟩ := ih (id0 + w.count) e he
      exact ⟨w2, List.mem_cons_of_mem _ hw2, id, heq⟩

theorem mem_buildRoster (ftL ptL : List Window) (L : Option Int) (e : RosterEntry)
    (he : e ∈ buildRoster ftL ptL L) :
    ∃ w ∈ ftL ++ ptL, ∃ type id, e = addEntry type id w.start w.«end» L := by
  rw [buildRoster, List.mem_append] at he
  rcases he with he | he
  · obtain ⟨w, hw, id, heq⟩ := mem_rosterFor "FT" L ftL 1 e he
    exact ⟨w, List.mem_append_left _ hw, "FT", id, heq⟩
  · obtain ⟨w, hw, id, heq⟩ := mem_rosterFor "PT" L ptL 1 e he
    exact ⟨w, List.mem_append_right _ hw, "PT", id, heq⟩

/-- C7 counterexample: an 8-hour FT shift starting at hour 9 with a 600-minute
lunch.  The snapped value is `480`, but the stored entry has
`lunchStart = 540` (clamped up to the shift start) and `lunchEnd = 1020`
(clamped down to the shift end), so `lunchEnd ≠ lunchStart + lunchMinutes` and
`lunchStart` is not the snapped midpoint value — the claim's equations fail. -/
theorem C7_lunch_window_counterexample :
    (buildRoster [⟨9, 17, 1⟩] [] (some 600)).map (fun e => (e.lunchStart, e.lunchEnd)) =
      [((540 : Int), (1020 : Int))] ∧
    snap30 (2 * ((9 : Int) * 60) + ((17 : Int) - 9) * 60 - 600) = 480 ∧
    ¬((540 : Int) = 480) ∧ ¬((1020 : Int) = 540 + 600) := by
  refine ⟨by decide, by decide, by decide, by decide⟩

/-- C7 (amended): every roster entry's lunch window lies within
`[start*60, end*60]` (for windows with `start ≤ end`); and **when the lunch
fits in the shift** (`lunchMinutes ≤ (end-start)*60`) no clamping occurs, so
`lunchStart` is exactly the shift midpoint minus half the lunch duration
rounded to the nearest 30-minute boundary (round-half-up) and
`lunchEnd = lunchStart + lunchMinutes`.  In general the code clamps:
`lunchStart = max(start*60, snapped)` and
`lunchEnd = min(end*60, snapped + lunchMinutes)`. -/
theorem C7_lunch_window (ftL ptL : List Window) (Lv : Int) (hL : 0 ≤ Lv)
    (hwf : ∀ w ∈ ftL ++ ptL, w.start ≤ w.«end») :
    ∀ e ∈ buildRoster ftL ptL (some Lv),
      ((e.start : Int) * 60 ≤ e.lunchStart ∧ e.lunchStart ≤ (e.«end» : Int) * 60 ∧
       (e.start : Int) * 60 ≤ e.lunchEnd ∧ e.lunchEnd ≤ (e.«end» : Int) * 60) ∧
      (Lv ≤ ((e.«end» : Int) - (e.start : Int)) * 60 →
        e.lunchStart = snap30 (2 * ((e.start : Int) * 60) +
          ((e.«end» : Int) - (e.start : Int)) * 60 - Lv) ∧
        e.lunchEnd = e.lunchStart + Lv) := by
  intro e he
  obtain ⟨w, hw, type, id, rfl⟩ := mem_buildRoster ftL ptL (some Lv) e he
  exact addEntry_spec type id w.start w.«end» Lv (hwf w hw) hL

/-- The single roster entry produced by one FT window `9..17` with lunch 30. -/
def entryEx : RosterEntry := addEntry "FT" 1 9 17 (some 30)

theorem C7_lunch_window_witness :
    (((entryEx.start : Int) * 60 ≤ entryEx.lunchStart ∧
      entryEx.lunchStart ≤ (entryEx.«end» : Int) * 60 ∧
      (entryEx.start : Int) * 60 ≤ entryEx.lunchEnd ∧
      entryEx.lunchEnd ≤ (entryEx.«end» : Int) * 60) ∧
     ((30 : Int) ≤ ((entryEx.«end» : Int) - (entryEx.start : Int)) * 60 →
       entryEx.lunchStart = snap30 (2 * ((entryEx.start : Int) * 60) +
         ((entryEx.«end» : Int) - (entryEx.start : Int)) * 60 - 30) ∧
       entryEx.lunchEnd = entryEx.lunchStart + 30)) :=
  C7_lunch_window [⟨9, 17, 1⟩] [] 30 (by decide) (by decide) entryEx (by decide)

end ScheduleApp
